import Mathlib

/-!
CFL: weak-form Term Lists (`cfl/matrixfree/forms.h`) and the compile-time loop
unroller (`cfl/static_for.h`).

A shallow embedding of the two headers, followed by theorems about them.

* A `Forms<FormType, Types...>` instantiation is a `List Form` (head `FormType`,
  tail `Types`); `Forms<>` is `[]`.  Members that `Forms<>` does not declare
  evaluate to `none` on `[]`.
* The evaluator collaborator `FEEvaluation& phi` is a recording evaluator: the
  list of calls made on it so far.
* `size_t` arithmetic of `static_for.h` is arithmetic on `Nat` reduced modulo
  `2^64`.
* A run of `static_for.h` is the sequence of indices on which the user's functor is
  invoked; `none` stands for a run that does not exist (the nested calls never end,
  or a constant expression is ill-formed).
* `transform` of a base list is `none` when the class `Forms<...>` it names cannot be
  instantiated, its `static_assert` on `check_forms` failing.
-/

namespace CFL

/-! ## Collaborator types that `forms.h` consumes -/

/-- Modelled from the spec: the enumeration `FormKind` is declared in
`cfl/base/forms.h`, which is not part of the sources at hand.  The spec gives the
closed set interior-cell, interface-face, boundary-face; `forms.h` names the
enumerators `cell`, `face`, `boundary`. -/
inductive FormKind where
  | cell
  | face
  | boundary
  deriving DecidableEq, Repr

/-- Modelled from the spec: the record `IntegrationFlags` is declared outside the
sources at hand.  The spec describes it as a record of four boolean capabilities;
`forms.h` reads the fields `value`, `value_exterior`, `gradient`,
`gradient_exterior`.  A value-initialised record has every capability off. -/
structure IntegrationFlags where
  value : Bool
  value_exterior : Bool
  gradient : Bool
  gradient_exterior : Bool
  deriving DecidableEq, Repr

/-- Modelled from the spec: `IntegrationFlags{}`, the empty flag set. -/
def IntegrationFlags.empty : IntegrationFlags := ⟨false, false, false, false⟩

/-- Modelled from the spec: `operator&` of `IntegrationFlags`, used by
`check_forms` as a condition.  It is true exactly when the bitwise AND of the
two flag sets is non-zero, i.e. when some capability bit is set in both. -/
def IntegrationFlags.and (a b : IntegrationFlags) : Bool :=
  (a.value && b.value) || (a.value_exterior && b.value_exterior) ||
    (a.gradient && b.gradient) || (a.gradient_exterior && b.gradient_exterior)

/-- The test object type `Test` of a `Form`: `forms.h` uses its static members
`Test::index` and `Test::integration_flags` (and `Test::submit`, below). -/
structure Test where
  index : Nat
  integration_flags : IntegrationFlags
  deriving DecidableEq, Repr

/-- The expression tree `Expr` of a `Form`, opaque to `forms.h`; `name` tells
expression objects apart. -/
structure Expr where
  name : Nat
  deriving DecidableEq, Repr

/-- One call observed by the evaluator collaborator. -/
inductive Call where
  | set_integration_flags (fe_number : Nat) (value gradient : Bool)
  | set_integration_flags_face_and_boundary (fe_number : Nat)
      (value value_exterior gradient gradient_exterior : Bool)
  | integrate (fe_number : Nat) (value gradient : Bool)
  | set_evaluation_flags (expr : Expr)
  | value (expr : Expr) (q : Nat)
  | submit (test : Test) (q : Nat) (value : Int)
  deriving DecidableEq, Repr

/-- The evaluator collaborator `FEEvaluation& phi`, as a recording evaluator: the
calls received so far, oldest first. -/
abbrev FEEvaluation := List Call

/-- The numbers an expression tree computes: `ev e phi q` is what
`e.value(phi, q)` returns when the evaluator has received the calls `phi`. -/
abbrev ValueOracle := Expr → FEEvaluation → Nat → Int

/-- `expr.value(phi, q)`: returns the value and is seen by the evaluator. -/
def Expr.value (ev : ValueOracle) (expr : Expr) (phi : FEEvaluation) (q : Nat) :
    Int × FEEvaluation :=
  (ev expr phi q, phi ++ [Call.value expr q])

/-- `expr.set_evaluation_flags(phi)`. -/
def Expr.set_evaluation_flags (expr : Expr) (phi : FEEvaluation) : FEEvaluation :=
  phi ++ [Call.set_evaluation_flags expr]

/-- `Test::submit(phi, q, value)`. -/
def Test.submit (test : Test) (phi : FEEvaluation) (q : Nat) (value : Int) : FEEvaluation :=
  phi ++ [Call.submit test q value]

/-! ## `class Form` (forms.h 28-183) -/

/-- `Form<Test, Expr, kind_of_form>`. -/
structure Form where
  test : Test
  expr : Expr
  form_kind : FormKind
  deriving DecidableEq, Repr

namespace Form

/-- forms.h 38. -/
def fe_number (f : Form) : Nat := f.test.index

/-- forms.h 39. -/
def integrate_value (f : Form) : Bool := f.test.integration_flags.value

/-- forms.h 40-41. -/
def integrate_value_exterior (f : Form) : Bool :=
  if f.form_kind = FormKind.face then f.test.integration_flags.value_exterior else false

/-- forms.h 42. -/
def integrate_gradient (f : Form) : Bool := f.test.integration_flags.gradient

/-- forms.h 43-44. -/
def integrate_gradient_exterior (f : Form) : Bool :=
  if f.form_kind = FormKind.face then f.test.integration_flags.gradient_exterior else false

end Form

/-- The array `std::array<bool, 3>` of `get_form_kinds`. -/
structure UseObjects where
  at0 : Bool
  at1 : Bool
  at2 : Bool
  deriving DecidableEq, Repr

namespace Form

/-- forms.h 53-74. -/
def get_form_kinds (f : Form) (use_objects : UseObjects) : UseObjects :=
  match f.form_kind with
  | FormKind.cell => { use_objects with at0 := true }
  | FormKind.face => { use_objects with at1 := true }
  | FormKind.boundary => { use_objects with at2 := true }

/-- forms.h 76-82. -/
def integrate (f : Form) (phi : FEEvaluation) : FEEvaluation :=
  phi ++ [Call.integrate f.fe_number f.integrate_value f.integrate_gradient]

/-- forms.h 84-91. -/
def set_integration_flags (f : Form) (phi : FEEvaluation) : FEEvaluation :=
  if f.form_kind = FormKind.cell then
    phi ++ [Call.set_integration_flags f.fe_number f.integrate_value f.integrate_gradient]
  else phi

/-- forms.h 93-104. -/
def set_integration_flags_face (f : Form) (phi : FEEvaluation) : FEEvaluation :=
  if f.form_kind = FormKind.face then
    phi ++ [Call.set_integration_flags_face_and_boundary f.fe_number f.integrate_value
      f.integrate_value_exterior f.integrate_gradient f.integrate_gradient_exterior]
  else phi

/-- forms.h 106-117. -/
def set_integration_flags_boundary (f : Form) (phi : FEEvaluation) : FEEvaluation :=
  if f.form_kind = FormKind.boundary then
    phi ++ [Call.set_integration_flags_face_and_boundary f.fe_number f.integrate_value
      f.integrate_value_exterior f.integrate_gradient f.integrate_gradient_exterior]
  else phi

/-- forms.h 119-125. -/
def set_evaluation_flags (f : Form) (phi : FEEvaluation) : FEEvaluation :=
  if f.form_kind = FormKind.cell then f.expr.set_evaluation_flags phi else phi

/-- forms.h 127-134. -/
def set_evaluation_flags_face (f : Form) (phi : FEEvaluation) : FEEvaluation :=
  if f.form_kind = FormKind.face ∨ f.form_kind = FormKind.boundary then
    f.expr.set_evaluation_flags phi
  else phi

/-- forms.h 136-145. -/
def evaluate (ev : ValueOracle) (f : Form) (phi : FEEvaluation) (q : Nat) : FEEvaluation :=
  if f.form_kind = FormKind.cell then
    let r := f.expr.value ev phi q
    f.test.submit r.2 q r.1
  else phi

/-- forms.h 147-156. -/
def evaluate_face (ev : ValueOracle) (f : Form) (phi : FEEvaluation) (q : Nat) :
    FEEvaluation :=
  if f.form_kind = FormKind.face then
    let r := f.expr.value ev phi q
    f.test.submit r.2 q r.1
  else phi

/-- forms.h 158-168. -/
def evaluate_boundary (ev : ValueOracle) (f : Form) (phi : FEEvaluation) (q : Nat) :
    FEEvaluation :=
  if f.form_kind = FormKind.boundary then
    let r := f.expr.value ev phi q
    f.test.submit r.2 q r.1
  else phi

/-- forms.h 170-175. -/
def value (ev : ValueOracle) (f : Form) (phi : FEEvaluation) (q : Nat) : Int × FEEvaluation :=
  f.expr.value ev phi q

/-- forms.h 177-182. -/
def submit (f : Form) (phi : FEEvaluation) (q : Nat) (value : Int) : FEEvaluation :=
  f.test.submit phi q value

end Form

/-! ## `class Forms` (forms.h 203-443) -/

namespace Forms

/-- forms.h 218 and 220-225, 227: the static members of `Forms<FormType, Types...>`
that are read off the head type `FormType`. -/
def form_kind (FormType : Form) : FormKind := FormType.form_kind

/-- forms.h 220. -/
def integrate_value (FormType : Form) : Bool := FormType.integrate_value

/-- forms.h 221-222. -/
def integrate_value_exterior (FormType : Form) : Bool :=
  if form_kind FormType = FormKind.face then FormType.integrate_value_exterior else false

/-- forms.h 223. -/
def integrate_gradient (FormType : Form) : Bool := FormType.integrate_gradient

/-- forms.h 224-225. -/
def integrate_gradient_exterior (FormType : Form) : Bool :=
  if form_kind FormType = FormKind.face then FormType.integrate_gradient_exterior else false

/-- forms.h 227. -/
def fe_number (FormType : Form) : Nat := FormType.fe_number

/-- forms.h 210 and 228: `number` is `0` for `Forms<>` and for a one-element list,
and one more than the tail's `number` otherwise. -/
def number : List Form → Nat
  | [] => 0
  | _ :: Types => if Types.length = 0 then 0 else number Types + 1

/-- An entry of the accumulator of `check_forms`:
`std::tuple<FormKind, unsigned int, IntegrationFlags>`. -/
abbrev Item := FormKind × Nat × IntegrationFlags

/-- Modelled from the spec: a value-initialised accumulator entry.  Its flag set
is empty and its index is `0`; its kind is the enumerator of value `0`, taken to
be `cell`. -/
def Item.zero : Item := (FormKind.cell, 0, IntegrationFlags.empty)

/-- forms.h 420-426, the scan of `check_forms`, over the indices `i` that the
`for` loop visits: `none` when `container.at(i)` is out of range, `some false`
when the loop returns `false`, `some true` when it runs to its end. -/
def check_forms_scan (FormType : Form) (container : List Item) : List Nat → Option Bool
  | [] => some true
  | i :: rest =>
    match container[i]? with
    | none => none
    | some item =>
      if item.1 = form_kind FormType ∧ item.2.1 = fe_number FormType ∧
          IntegrationFlags.and item.2.2 FormType.test.integration_flags = true then
        some false
      else check_forms_scan FormType container rest

/-- forms.h 410-436, `check_forms<size, IntegrationFlags>(container)` of the class
`Forms<FormType, Types...>`; `Forms<>` has no such member. -/
def check_forms : List Form → Nat → List Item → Option Bool
  | [], _, _ => none
  | FormType :: Types, size, container =>
    match check_forms_scan FormType container
        (List.range' (number (FormType :: Types)) (size - number (FormType :: Types))) with
    | none => none
    | some false => some false
    | some true =>
      if Types.length ≠ 0 then
        check_forms Types (size + 1)
          (container ++ [(form_kind FormType, fe_number FormType,
            FormType.test.integration_flags)])
      else some true

/-- forms.h 438: the condition of the `static_assert`,
`check_forms<number, ...>()` with the default argument, an array of `number`
value-initialised entries. -/
def static_assert_check_forms (forms : List Form) : Option Bool :=
  check_forms forms (number forms) (List.replicate (number forms) Item.zero)

/-- The arguments of the `j`-th nested call in the recursion of `check_forms`
(forms.h 410-436) started on a list with `size` and `container`: the list whose class
makes the call, its template argument `size`, and its accumulator.  Call 0 is the
start itself; the next call is made exactly where `check_forms` makes it, after a
scan that ran to its end and for a non-empty tail, with `size + 1` and the
accumulator extended by `internal::append` (forms.h 185-201).  `none` when the
recursion does not get that far. -/
def check_forms_call : Nat → List Form → Nat → List Item →
    Option (List Form × Nat × List Item)
  | _, [], _, _ => none
  | 0, FormType :: Types, size, container => some (FormType :: Types, size, container)
  | j + 1, FormType :: Types, size, container =>
    match check_forms_scan FormType container
        (List.range' (number (FormType :: Types)) (size - number (FormType :: Types))) with
    | some true =>
      if Types.length ≠ 0 then
        check_forms_call j Types (size + 1)
          (container ++ [(form_kind FormType, fe_number FormType,
            FormType.test.integration_flags)])
      else none
    | _ => none

/-- The `j`-th nested call of the top-level run of forms.h 438. -/
def static_assert_check_forms_call (j : Nat) (forms : List Form) :
    Option (List Form × Nat × List Item) :=
  check_forms_call j forms (number forms) (List.replicate (number forms) Item.zero)

/-- forms.h 238-261; `Forms<>` has no such member. -/
def get_form_kinds : List Form → UseObjects → Option UseObjects
  | [], _ => none
  | FormType :: Types, use_objects =>
    let use_objects1 :=
      match form_kind FormType with
      | FormKind.cell => { use_objects with at0 := true }
      | FormKind.face => { use_objects with at1 := true }
      | FormKind.boundary => { use_objects with at2 := true }
    if Types.length ≠ 0 then get_form_kinds Types use_objects1 else some use_objects1

/-- forms.h 263-271; `Forms<>` has no such member. -/
def set_integration_flags : List Form → FEEvaluation → Option FEEvaluation
  | [], _ => none
  | FormType :: Types, phi =>
    let phi1 :=
      if form_kind FormType = FormKind.cell then
        phi ++ [Call.set_integration_flags (fe_number FormType) (integrate_value FormType)
          (integrate_gradient FormType)]
      else phi
    if Types.length ≠ 0 then set_integration_flags Types phi1 else some phi1

/-- forms.h 273-285; `Forms<>` has no such member. -/
def set_integration_flags_face : List Form → FEEvaluation → Option FEEvaluation
  | [], _ => none
  | FormType :: Types, phi =>
    let phi1 :=
      if form_kind FormType = FormKind.face then
        phi ++ [Call.set_integration_flags_face_and_boundary (fe_number FormType)
          (integrate_value FormType) (integrate_value_exterior FormType)
          (integrate_gradient FormType) (integrate_gradient_exterior FormType)]
      else phi
    if Types.length ≠ 0 then set_integration_flags_face Types phi1 else some phi1

/-- forms.h 287-299; `Forms<>` has no such member. -/
def set_integration_flags_boundary : List Form → FEEvaluation → Option FEEvaluation
  | [], _ => none
  | FormType :: Types, phi =>
    let phi1 :=
      if form_kind FormType = FormKind.boundary then
        phi ++ [Call.set_integration_flags_face_and_boundary (fe_number FormType)
          (integrate_value FormType) (integrate_value_exterior FormType)
          (integrate_gradient FormType) (integrate_gradient_exterior FormType)]
      else phi
    if Types.length ≠ 0 then set_integration_flags_boundary Types phi1 else some phi1

/-- forms.h 301-308; `Forms<>` has no such member. -/
def set_evaluation_flags : List Form → FEEvaluation → Option FEEvaluation
  | [], _ => none
  | form :: Types, phi =>
    let phi1 :=
      if form_kind form = FormKind.cell then form.expr.set_evaluation_flags phi else phi
    if Types.length ≠ 0 then set_evaluation_flags Types phi1 else some phi1

/-- forms.h 310-318; `Forms<>` has no such member. -/
def set_evaluation_flags_face : List Form → FEEvaluation → Option FEEvaluation
  | [], _ => none
  | form :: Types, phi =>
    let phi1 :=
      if form_kind form = FormKind.face ∨ form_kind form = FormKind.boundary then
        form.expr.set_evaluation_flags phi
      else phi
    if Types.length ≠ 0 then set_evaluation_flags_face Types phi1 else some phi1

/-- forms.h 320-343; `Forms<>` has no such member. -/
def evaluate (ev : ValueOracle) : List Form → FEEvaluation → Nat → Option FEEvaluation
  | [], _, _ => none
  | form :: Types, phi, q =>
    if form_kind form = FormKind.cell then
      let r := form.value ev phi q
      match (if Types.length ≠ 0 then evaluate ev Types r.2 q else some r.2) with
      | none => none
      | some phi2 => some (form.submit phi2 q r.1)
    else if Types.length ≠ 0 then evaluate ev Types phi q
    else some phi

/-- forms.h 345-368; `Forms<>` has no such member. -/
def evaluate_face (ev : ValueOracle) : List Form → FEEvaluation → Nat → Option FEEvaluation
  | [], _, _ => none
  | form :: Types, phi, q =>
    if form_kind form = FormKind.face then
      let r := form.value ev phi q
      match (if Types.length ≠ 0 then evaluate_face ev Types r.2 q else some r.2) with
      | none => none
      | some phi2 => some (form.submit phi2 q r.1)
    else if Types.length ≠ 0 then evaluate_face ev Types phi q
    else some phi

/-- forms.h 370-393; `Forms<>` has no such member. -/
def evaluate_boundary (ev : ValueOracle) :
    List Form → FEEvaluation → Nat → Option FEEvaluation
  | [], _, _ => none
  | form :: Types, phi, q =>
    if form_kind form = FormKind.boundary then
      let r := form.value ev phi q
      match (if Types.length ≠ 0 then evaluate_boundary ev Types r.2 q else some r.2) with
      | none => none
      | some phi2 => some (form.submit phi2 q r.1)
    else if Types.length ≠ 0 then evaluate_boundary ev Types phi q
    else some phi

/-- forms.h 395-401; `Forms<>` has no such member. -/
def integrate : List Form → FEEvaluation → Option FEEvaluation
  | [], _ => none
  | FormType :: Types, phi =>
    let phi1 := phi ++ [Call.integrate (fe_number FormType) (integrate_value FormType)
      (integrate_gradient FormType)]
    if Types.length ≠ 0 then integrate Types phi1 else some phi1

/-- The accepting list of the spec: an interior-cell Term on slot 0 wanting the
value and an interior-cell Term on slot 1 wanting the gradient. -/
def accepted_example : List Form :=
  [⟨⟨0, ⟨true, false, false, false⟩⟩, ⟨0⟩, FormKind.cell⟩,
   ⟨⟨1, ⟨false, false, true, false⟩⟩, ⟨1⟩, FormKind.cell⟩]

/-- The rejecting list of the spec: two interior-cell Terms on slot 0, both wanting
the gradient. -/
def rejected_example : List Form :=
  [⟨⟨0, ⟨false, false, true, false⟩⟩, ⟨0⟩, FormKind.cell⟩,
   ⟨⟨0, ⟨false, false, true, false⟩⟩, ⟨1⟩, FormKind.cell⟩]

/-- The submissions a traversal owes for the Terms `terms` it evaluates, in the
order of their evaluation: the Term evaluated when the evaluator had received `phi`
is submitted with the value `ev expr phi q` that this evaluation returned. -/
def submit_calls (ev : ValueOracle) (q : Nat) : FEEvaluation → List Form → List Call
  | _, [] => []
  | phi, T :: terms =>
    Call.submit T.test q (ev T.expr phi q) ::
      submit_calls ev q (phi ++ [Call.value T.expr q]) terms

/-- The Terms of a list that carry the classification `kind`, in list order. -/
def of_kind (kind : FormKind) (forms : List Form) : List Form :=
  forms.filter (fun T => decide (T.form_kind = kind))

/-- A boundary-face Term on slot 0 whose test object declares the value and both
exterior-side capabilities. -/
def boundary_example : Form :=
  ⟨⟨0, ⟨true, true, false, true⟩⟩, ⟨0⟩, FormKind.boundary⟩

/-- A value oracle for concrete runs: the value depends on the expression, on how
many calls the evaluator has received, and on the quadrature index. -/
def oracle_example : ValueOracle :=
  fun expr phi q => (expr.name : Int) + 10 * (phi.length : Int) + 100 * (q : Int)

/-- The relation the consistency check forbids between two Terms of one list:
equal classification, equal target index, and integration-flag sets with a common
capability bit. -/
def Conflict (a b : Form) : Prop :=
  a.form_kind = b.form_kind ∧ a.fe_number = b.fe_number ∧
    IntegrationFlags.and a.test.integration_flags b.test.integration_flags = true

/-- forms.h 403-407, `get_form()`: the Term that the list node owns, its head;
`Forms<>` has no such member. -/
def get_form : List Form → Option Form
  | [] => none
  | form :: _ => some form

end Forms

/-! ## The base representation and `transform` (forms.h 46-51, 211, 230-236, 445-459) -/

namespace Base

/-- Modelled from the spec: a test object of the base representation.  Its type is
declared outside the sources at hand and is opaque to `forms.h`; `name` tells test
objects apart. -/
structure Test where
  name : Nat
  deriving DecidableEq, Repr

/-- Modelled from the spec: an expression tree of the base representation, declared
outside the sources at hand and opaque to `forms.h`. -/
structure Expr where
  name : Nat
  deriving DecidableEq, Repr

/-- Modelled from the spec: `Base::Form<Test, Expr, kind_of_form>`, a term type
exposing the fields `test` and `expr` and a classification tag. -/
structure Form where
  test : Base.Test
  expr : Base.Expr
  form_kind : FormKind
  deriving DecidableEq, Repr

/-- Modelled from the spec: `Base::Forms<Types...>`, a list type exposing a head
term, read with `get_form()`, plus a tail list, reached with the `static_cast` to
`Base::Forms<OtherTypes...>`; it is the list of its terms, head first. -/
abbrev Forms := List Base.Form

end Base

/-- forms.h 46-51, the converting constructor of `Form`: test and expression are
transformed, the classification `kind_of_form` is that of the base term.
`transform_test` and `transform_expr` are the overloads of `transform` for test
objects and expression trees, declared in `cfl/matrixfree/fefunctions.h`, which is
not part of the sources at hand. -/
def Form.from_base (transform_test : Base.Test → Test) (transform_expr : Base.Expr → Expr)
    (f : Base.Form) : Form :=
  ⟨transform_test f.test, transform_expr f.expr, f.form_kind⟩

/-- forms.h 211, 230-236 and 438, the constructors of `Forms`: the base class
`Forms<Types...>` is built from the tail of the base list, the member `form` from
its head `f.get_form()`.  The class `Forms<FormType, Types...>` can be instantiated
only when its `static_assert` on `check_forms` (forms.h 438) holds, and its base
class likewise; `none` when it cannot, so that no Term List is built.  `Forms<>` has
no `static_assert`. -/
def Forms.from_base (transform_test : Base.Test → Test) (transform_expr : Base.Expr → Expr) :
    Base.Forms → Option (List Form)
  | [] => some []
  | OtherType :: OtherTypes =>
    match Forms.from_base transform_test transform_expr OtherTypes with
    | none => none
    | some Types =>
      if Forms.static_assert_check_forms
          (Form.from_base transform_test transform_expr OtherType :: Types) = some true then
        some (Form.from_base transform_test transform_expr OtherType :: Types)
      else none

/-- forms.h 445-452, `transform` of a single base term. -/
def transform_form (transform_test : Base.Test → Test) (transform_expr : Base.Expr → Expr)
    (f : Base.Form) : Form :=
  Form.from_base transform_test transform_expr f

/-- forms.h 454-459, `transform` of a base list: it names the class
`Forms<decltype(transform(std::declval<Types>()))...>` and constructs it from `f`;
`none` when that class cannot be instantiated. -/
def transform_forms (transform_test : Base.Test → Test) (transform_expr : Base.Expr → Expr)
    (f : Base.Forms) : Option (List Form) :=
  Forms.from_base transform_test transform_expr f

/-- A transformation of test objects for concrete runs: the slot is the name, and
the value capability is wanted. -/
def transform_test_example : Base.Test → Test :=
  fun t => ⟨t.name, ⟨true, false, false, false⟩⟩

/-- A transformation of expression trees for concrete runs. -/
def transform_expr_example : Base.Expr → Expr :=
  fun e => ⟨e.name + 100⟩

/-- A base list for concrete runs: a cell term, a boundary term, a face term. -/
def base_example : Base.Forms :=
  [⟨⟨0⟩, ⟨0⟩, FormKind.cell⟩, ⟨⟨1⟩, ⟨1⟩, FormKind.boundary⟩, ⟨⟨2⟩, ⟨2⟩, FormKind.face⟩]

/-- A base list of two cell terms with the same test object: under
`transform_test_example` both Terms want the value on slot 0. -/
def base_conflicting_example : Base.Forms :=
  [⟨⟨0⟩, ⟨0⟩, FormKind.cell⟩, ⟨⟨0⟩, ⟨1⟩, FormKind.cell⟩]

end CFL

/-! ## The flat unrollers (`cfl/static_for.h` 4-48) -/

/-- static_for.h 4-23, `static_for_new<First, Last, FunctorT>()()`: the sequence of
indices `First` for which a `FunctorT<First>` is constructed.  The specialisation
`<N, N>` does nothing.  The primary template instantiates
`static_for_new<First + 1, Last, FunctorT>` whether or not `First < Last`; the
template argument `First + 1` is an `int` constant expression, ill-formed when it
overflows.  The first argument bounds the depth of nested instantiations. -/
def static_for_new : Nat → Int → Int → Option (List Int)
  | 0, _, _ => none
  | depth + 1, First, Last =>
    if First = Last then some []
    else if First + 1 > 2147483647 then none
    else
      match static_for_new depth (First + 1) Last with
      | none => none
      | some rest => some (if First < Last then First :: rest else [])

/-- static_for.h 25-48, `static_for_old<First, Last>()(fn)`: the sequence of
arguments on which `fn` is called; same shape as `static_for_new`. -/
def static_for_old : Nat → Int → Int → Option (List Int)
  | 0, _, _ => none
  | depth + 1, First, Last =>
    if First = Last then some []
    else if First + 1 > 2147483647 then none
    else
      match static_for_old depth (First + 1) Last with
      | none => none
      | some rest => some (if First < Last then First :: rest else [])

/-! ## The loop unroller (`cfl/static_for.h` 52-191) -/

/-- `size_t` addition: 64-bit unsigned, wrapping. -/
def sz_add (a b : Nat) : Nat := (a + b) % 18446744073709551616

/-- `size_t` subtraction: 64-bit unsigned, wrapping. -/
def sz_sub (a b : Nat) : Nat :=
  (a + 18446744073709551616 - b % 18446744073709551616) % 18446744073709551616

/-- `size_t` multiplication: 64-bit unsigned, wrapping. -/
def sz_mul (a b : Nat) : Nat := (a * b) % 18446744073709551616

namespace static_for_impl

/-- static_for.h 67-71: `point<pt_start, pt_end>`, a node of the tree. -/
structure point where
  start_ : Nat
  end_ : Nat
  deriving DecidableEq, Repr

namespace point

/-- static_for.h 72. -/
def count_ (pt : point) : Nat := sz_add (sz_sub pt.end_ pt.start_) 1

/-- static_for.h 73. -/
def is_end_point_ (sequence_width : Nat) (pt : point) : Bool :=
  decide (pt.count_ ≤ sequence_width)

/-- static_for.h 98-102; a division by zero in a constant expression is an error,
`none`. -/
def points_in_sequence (pt : point) (max : Nat) : Option Nat :=
  if max = 0 then none
  else some (sz_add (pt.count_ / max) (if pt.count_ % max > 0 then 1 else 0))

/-- static_for.h 75-81. -/
def sequence_count (sequence_width : Nat) (pt : point) : Option Nat :=
  match pt.points_in_sequence sequence_width with
  | none => none
  | some p => some (if p > sequence_width then sequence_width else p)

/-- static_for.h 90-97. -/
def child_end (sequence_width : Nat) (pt : point) (index : Nat) : Option Nat :=
  match pt.sequence_count sequence_width with
  | none => none
  | some k =>
    if index = sz_sub k 1 then some pt.end_
    else
      match pt.points_in_sequence k with
      | none => none
      | some p =>
        some (sz_sub (sz_add pt.start_ (sz_mul p (sz_add index 1)))
          (if index < pt.count_ then 1 else 0))

/-- static_for.h 85-89. -/
def child_start (sequence_width : Nat) (pt : point) (index : Nat) : Option Nat :=
  if index = 0 then some pt.start_
  else
    match pt.child_end sequence_width (sz_sub index 1) with
    | none => none
    | some e => some (sz_add e 1)

/-- static_for.h 106-107. -/
def child_point (sequence_width : Nat) (pt : point) (index : Nat) : Option point :=
  match pt.child_start sequence_width index, pt.child_end sequence_width index with
  | some s, some e => some ⟨s, e⟩
  | _, _ => none

end point

namespace flat_for

/-- static_for.h 125-137, `flat_next` of `flat_for<flat_start, flat_end, flat_functor>`:
at `index = flat_end + 1` the terminating overload is chosen and nothing is
invoked; otherwise `flat_functor::func<index>` runs, then `flat_next` at
`index + 1`.  `func index` is the sequence of invocations of the user's functor
that `func<index>` makes (`none`: it makes no run).  The first argument
bounds the number of steps; an index is a `size_t`, so `flat_end + 1` is reached
within `2^64` steps. -/
def flat_next (func : Nat → Option (List Nat)) (flat_end : Nat) :
    Nat → Nat → Option (List Nat)
  | 0, _ => none
  | steps + 1, index =>
    if index = sz_add flat_end 1 then some []
    else
      match func index with
      | none => none
      | some out =>
        match flat_next func flat_end steps (sz_add index 1) with
        | none => none
        | some rest => some (out ++ rest)

/-- static_for.h 116-121. -/
def flat_loop (func : Nat → Option (List Nat)) (flat_start flat_end : Nat) :
    Option (List Nat) :=
  flat_next func flat_end 18446744073709551617 flat_start

end flat_for

/-- static_for.h 142-173, `next<sequence>` with both overloads and
`flat_sequence<sequence>::func<index>`.  The result is the sequence of indices on
which the user's `functor::func` is invoked.  The first argument bounds the depth
of nested calls of `next`; `none` means that the nested calls do not end within
that depth, or that a constant expression is ill-formed. -/
def next (sequence_width : Nat) : Nat → point → Option (List Nat)
  | 0, _ => none
  | depth + 1, sequence =>
    if sequence.is_end_point_ sequence_width then
      flat_for.flat_loop (fun index => some [index]) sequence.start_ sequence.end_
    else
      match sequence.sequence_count sequence_width with
      | none => none
      | some k =>
        flat_for.flat_loop
          (fun index =>
            match sequence.child_point sequence_width index with
            | none => none
            | some pt => next sequence_width depth pt)
          0 (sz_sub k 1)

/-- static_for.h 56-63. -/
def loop (for_start for_end sequence_width depth : Nat) : Option (List Nat) :=
  next sequence_width depth ⟨for_start, for_end⟩

end static_for_impl

/-- static_for.h 176-182, the count form `static_for<count, functor, sequence_width>`. -/
def static_for (count sequence_width depth : Nat) : Option (List Nat) :=
  static_for_impl.loop 0 (sz_sub count 1) sequence_width depth

/-- static_for.h 184-191, the range form
`static_for<start, end, functor, sequence_width>`. -/
def static_for_range (start stop sequence_width depth : Nat) : Option (List Nat) :=
  static_for_impl.loop start stop sequence_width depth

/-- The quotient `count / max` rounded up, as `points_in_sequence` computes it when
nothing overflows. -/
def ceil_div (count max : Nat) : Nat := count / max + (if count % max > 0 then 1 else 0)

/-! ## The consistency check `check_forms` -/

namespace CFL

theorem Forms.number_cons (f : Form) (Types : List Form) :
    Forms.number (f :: Types) = Types.length := by
  induction Types generalizing f with
  | nil => simp [Forms.number]
  | cons g rest ih =>
    have h : Forms.number (f :: g :: rest) = Forms.number (g :: rest) + 1 := by
      rw [Forms.number]
      simp
    rw [h, ih g]
    simp

theorem IntegrationFlags.and_comm (a b : IntegrationFlags) :
    IntegrationFlags.and a b = IntegrationFlags.and b a := by
  simp [IntegrationFlags.and, Bool.and_comm]

theorem IntegrationFlags.empty_and (a : IntegrationFlags) :
    IntegrationFlags.and IntegrationFlags.empty a = false := by
  simp [IntegrationFlags.and, IntegrationFlags.empty]

/-- The scan never leaves the array when its indices are in range, and it runs to
its end exactly when no scanned entry collides with the Term. -/
theorem Forms.check_forms_scan_spec (f : Form) (container : List Forms.Item) (idxs : List Nat)
    (hb : ∀ i ∈ idxs, i < container.length) :
    ∃ b, Forms.check_forms_scan f container idxs = some b ∧
      (b = true ↔ ∀ i ∈ idxs, ∀ item, container[i]? = some item →
        ¬ (item.1 = f.form_kind ∧ item.2.1 = f.test.index ∧
          IntegrationFlags.and item.2.2 f.test.integration_flags = true)) := by
  induction idxs with
  | nil => exact ⟨true, by simp [Forms.check_forms_scan]⟩
  | cons i rest ih =>
    have hi : i < container.length := hb i (List.mem_cons_self _ _)
    obtain ⟨b, hb1, hb2⟩ := ih (fun k hk => hb k (List.mem_cons_of_mem _ hk))
    have hget : container[i]? = some container[i] := List.getElem?_eq_getElem hi
    by_cases hc : (container[i].1 = f.form_kind ∧ container[i].2.1 = f.test.index ∧
        IntegrationFlags.and container[i].2.2 f.test.integration_flags = true)
    · refine ⟨false, ?_, ?_⟩
      · simp only [Forms.check_forms_scan, hget, Forms.form_kind, Forms.fe_number,
          Form.fe_number]
        rw [if_pos hc]
      · constructor
        · intro h; cases h
        · intro h
          exact absurd hc (h i (List.mem_cons_self _ _) _ hget)
    · refine ⟨b, ?_, ?_⟩
      · simp only [Forms.check_forms_scan, hget, Forms.form_kind, Forms.fe_number,
          Form.fe_number]
        rw [if_neg hc]
        exact hb1
      · rw [hb2]
        constructor
        · intro h k hk item hitem
          rcases List.mem_cons.1 hk with rfl | hk
          · rw [hget] at hitem
            cases hitem
            exact hc
          · exact h k hk item hitem
        · intro h k hk item hitem
          exact h k (List.mem_cons_of_mem _ hk) item hitem

theorem Forms.check_forms_range_iff (P : List Form) (r : Nat) (f : Form) :
    (∀ i ∈ List.range' r (2 * P.length), ∀ item,
        (List.replicate (P.length + r) Forms.Item.zero ++
          P.map (fun p => (p.form_kind, p.test.index, p.test.integration_flags)))[i]? =
            some item →
        ¬ (item.1 = f.form_kind ∧ item.2.1 = f.test.index ∧
          IntegrationFlags.and item.2.2 f.test.integration_flags = true)) ↔
      ∀ p ∈ P, ¬ Forms.Conflict p f := by
  constructor
  · intro h p hp
    obtain ⟨k, hk, rfl⟩ := List.mem_iff_getElem.1 hp
    have hmem : P.length + r + k ∈ List.range' r (2 * P.length) := by
      rw [List.mem_range'_1]; omega
    have hget : (List.replicate (P.length + r) Forms.Item.zero ++
        P.map (fun p => (p.form_kind, p.test.index, p.test.integration_flags)))[
          P.length + r + k]? =
        some (P[k].form_kind, P[k].test.index, P[k].test.integration_flags) := by
      rw [List.getElem?_append_right (by simp)]
      simp [hk]
    have := h _ hmem _ hget
    simpa [Forms.Conflict, Form.fe_number] using this
  · intro h i _ item hitem
    have hin := List.getElem?_mem hitem
    rcases List.mem_append.1 hin with hz | hp
    · have hz2 : item = Forms.Item.zero := List.eq_of_mem_replicate hz
      subst hz2
      simp [Forms.Item.zero, IntegrationFlags.empty_and]
    · obtain ⟨p, hpP, rfl⟩ := List.mem_map.1 hp
      have := h p hpP
      simpa [Forms.Conflict, Form.fe_number] using this

/-- Invariant of the recursion of `check_forms`: with the Terms `P` already visited,
their records appended to the placeholders, the check of the remaining list
returns, and returns `true` exactly when no visited Term and no earlier remaining
Term conflicts with a remaining Term. -/
theorem Forms.check_forms_spec (rest : List Form) :
    ∀ (f : Form) (P : List Form),
      ∃ b, Forms.check_forms (f :: rest) (2 * P.length + rest.length)
          (List.replicate (P.length + rest.length) Forms.Item.zero ++
            P.map (fun p => (p.form_kind, p.test.index, p.test.integration_flags))) =
            some b ∧
        (b = true ↔ (∀ p ∈ P, ∀ x ∈ f :: rest, ¬ Forms.Conflict p x) ∧
          List.Pairwise (fun a b => ¬ Forms.Conflict a b) (f :: rest)) := by
  induction rest with
  | nil =>
    intro f P
    obtain ⟨b, hb1, hb2⟩ := Forms.check_forms_scan_spec f
      (List.replicate (P.length + 0) Forms.Item.zero ++
        P.map (fun p => (p.form_kind, p.test.index, p.test.integration_flags)))
      (List.range' 0 (2 * P.length))
      (by intro i hi; rw [List.mem_range'_1] at hi; simp; omega)
    rw [Forms.check_forms_range_iff] at hb2
    cases b with
    | false =>
      refine ⟨false, ?_, ?_⟩
      · simp only [Forms.check_forms, Forms.number_cons, List.length_nil, Nat.add_zero,
          Nat.sub_zero] at hb1 ⊢
        rw [hb1]
      · constructor
        · intro h; cases h
        · intro h
          exact hb2.2 (fun p hp => h.1 p hp f (List.mem_cons_self _ _))
    | true =>
      refine ⟨true, ?_, ?_⟩
      · simp only [Forms.check_forms, Forms.number_cons, List.length_nil, Nat.add_zero,
          Nat.sub_zero] at hb1 ⊢
        rw [hb1]
        simp
      · have h := hb2.1 rfl
        simp only [true_iff]
        refine ⟨?_, List.pairwise_singleton _ _⟩
        intro p hp x hx
        rw [List.mem_singleton] at hx
        subst hx
        exact h p hp
  | cons g rest ih =>
    intro f P
    obtain ⟨b, hb1, hb2⟩ := Forms.check_forms_scan_spec f
      (List.replicate (P.length + (g :: rest).length) Forms.Item.zero ++
        P.map (fun p => (p.form_kind, p.test.index, p.test.integration_flags)))
      (List.range' (g :: rest).length (2 * P.length))
      (by intro i hi; rw [List.mem_range'_1] at hi; simp at hi ⊢; omega)
    rw [Forms.check_forms_range_iff] at hb2
    have hsz : 2 * P.length + (g :: rest).length - (g :: rest).length = 2 * P.length := by
      omega
    cases b with
    | false =>
      refine ⟨false, ?_, ?_⟩
      · rw [Forms.check_forms, Forms.number_cons, hsz, hb1]
      · constructor
        · intro h; cases h
        · intro h
          exact hb2.2 (fun p hp => h.1 p hp f (List.mem_cons_self _ _))
    | true =>
      obtain ⟨b2, hc1, hc2⟩ := ih g (P ++ [f])
      have hlen : 2 * (P ++ [f]).length + rest.length =
          2 * P.length + (g :: rest).length + 1 := by
        simp only [List.length_append, List.length_cons, List.length_nil]; omega
      have hrep : (P ++ [f]).length + rest.length = P.length + (g :: rest).length := by
        simp only [List.length_append, List.length_cons, List.length_nil]; omega
      rw [hlen, hrep, List.map_append, ← List.append_assoc] at hc1
      refine ⟨b2, ?_, ?_⟩
      · rw [Forms.check_forms, Forms.number_cons, hsz, hb1]
        simp only [List.length_cons, ne_eq, Nat.add_one_ne_zero, not_false_eq_true, if_true]
        simpa [Forms.form_kind, Forms.fe_number, Form.fe_number] using hc1
      · have hPf := hb2.1 rfl
        rw [hc2]
        constructor
        · rintro ⟨h1, h2⟩
          refine ⟨?_, List.Pairwise.cons ?_ h2⟩
          · intro p hp x hx
            rcases List.mem_cons.1 hx with rfl | hx
            · exact hPf p hp
            · exact h1 p (List.mem_append_left _ hp) x hx
          · intro x hx
            exact h1 f (List.mem_append_right _ (List.mem_singleton_self _)) x hx
        · rintro ⟨h1, h23⟩
          obtain ⟨h2, h3⟩ := List.pairwise_cons.1 h23
          refine ⟨?_, h3⟩
          intro p hp x hx
          rcases List.mem_append.1 hp with hp | hp
          · exact h1 p hp x (List.mem_cons_of_mem _ hx)
          · rw [List.mem_singleton] at hp
            subst hp
            exact h2 x hx

theorem Forms.Conflict_symm {a b : Form} (h : Forms.Conflict a b) : Forms.Conflict b a := by
  obtain ⟨h1, h2, h3⟩ := h
  exact ⟨h1.symm, h2.symm, by rw [IntegrationFlags.and_comm]; exact h3⟩

theorem Forms.static_assert_check_forms_iff (forms : List Form) (h : forms ≠ []) :
    Forms.static_assert_check_forms forms = some true ↔
      List.Pairwise (fun a b => ¬ Forms.Conflict a b) forms := by
  cases forms with
  | nil => exact absurd rfl h
  | cons f rest =>
    obtain ⟨b, hb1, hb2⟩ := Forms.check_forms_spec rest f []
    simp only [List.length_nil, Nat.mul_zero, Nat.zero_add, List.map_nil, List.append_nil,
      List.not_mem_nil, false_imp_iff, implies_true, true_and] at hb1 hb2
    rw [Forms.static_assert_check_forms, Forms.number_cons, hb1, ← hb2]
    simp

/-- C1: for a non-empty Term List the construction-time check (`check_forms` started
on the whole list with its default accumulator) accepts exactly when no two distinct
positions hold Terms of equal classification and equal target index whose
integration-flag sets share a capability bit.  The list cell/slot 0/value,
cell/slot 1/gradient is accepted; the list of two cell/slot 0/gradient Terms is
rejected. -/
theorem check_forms_accepts_iff_no_conflict (forms : List Form) (h : forms ≠ []) :
    (Forms.static_assert_check_forms forms = some true ↔
      ¬ ∃ i j : Fin forms.length, i ≠ j ∧
        (forms.get i).form_kind = (forms.get j).form_kind ∧
        (forms.get i).fe_number = (forms.get j).fe_number ∧
        IntegrationFlags.and (forms.get i).test.integration_flags
          (forms.get j).test.integration_flags = true) ∧
    Forms.static_assert_check_forms Forms.accepted_example = some true ∧
    Forms.static_assert_check_forms Forms.rejected_example = some false := by
  refine ⟨?_, by decide, by decide⟩
  rw [Forms.static_assert_check_forms_iff forms h, List.pairwise_iff_get]
  constructor
  · rintro hp ⟨i, j, hij, hc⟩
    have hc2 : Forms.Conflict (forms.get i) (forms.get j) := hc
    rcases Nat.lt_or_gt_of_ne (fun e => hij (Fin.ext e)) with hlt | hgt
    · exact hp i j hlt hc2
    · exact hp j i hgt (Forms.Conflict_symm hc2)
  · intro hn i j hij hc
    exact hn ⟨i, j, Fin.ne_of_lt hij, hc⟩

/-- C1 at the rejecting list: it is non-empty, it holds a conflicting pair, and the
check does not accept it. -/
theorem check_forms_accepts_iff_no_conflict_witness :
    Forms.rejected_example ≠ [] ∧
    (Forms.static_assert_check_forms Forms.rejected_example = some true ↔
      ¬ ∃ i j : Fin Forms.rejected_example.length, i ≠ j ∧
        (Forms.rejected_example.get i).form_kind = (Forms.rejected_example.get j).form_kind ∧
        (Forms.rejected_example.get i).fe_number = (Forms.rejected_example.get j).fe_number ∧
        IntegrationFlags.and (Forms.rejected_example.get i).test.integration_flags
          (Forms.rejected_example.get j).test.integration_flags = true) :=
  ⟨by decide, (check_forms_accepts_iff_no_conflict Forms.rejected_example (by decide)).1⟩

/-! ## Traversals of a Term List -/

theorem Forms.get_form_kinds_aux (forms : List Form) :
    ∀ a : UseObjects,
      (if forms.length ≠ 0 then Forms.get_form_kinds forms a else some a) =
        some ⟨a.at0 || forms.any (fun T => decide (T.form_kind = FormKind.cell)),
          a.at1 || forms.any (fun T => decide (T.form_kind = FormKind.face)),
          a.at2 || forms.any (fun T => decide (T.form_kind = FormKind.boundary))⟩ := by
  induction forms with
  | nil => intro a; simp
  | cons T rest ih =>
    intro a
    simp only [List.length_cons, ne_eq, Nat.add_one_ne_zero, not_false_eq_true, if_true,
      Forms.get_form_kinds, Forms.form_kind]
    cases hk : T.form_kind <;> simp only [hk] <;> rw [ih] <;>
      simp [hk, Bool.or_assoc]

/-- C4: on a non-empty Term List `get_form_kinds(a)` returns the array whose entry 0
is `a[0]` or "some Term is interior-cell", entry 1 is `a[1]` or "some Term is
interface-face", entry 2 is `a[2]` or "some Term is boundary-face"; from the default
all-false array it returns exactly the presence set of the classifications. -/
theorem get_form_kinds_presence (forms : List Form) (h : forms ≠ []) (a : UseObjects) :
    Forms.get_form_kinds forms a =
        some ⟨a.at0 || forms.any (fun T => decide (T.form_kind = FormKind.cell)),
          a.at1 || forms.any (fun T => decide (T.form_kind = FormKind.face)),
          a.at2 || forms.any (fun T => decide (T.form_kind = FormKind.boundary))⟩ ∧
    Forms.get_form_kinds forms ⟨false, false, false⟩ =
        some ⟨forms.any (fun T => decide (T.form_kind = FormKind.cell)),
          forms.any (fun T => decide (T.form_kind = FormKind.face)),
          forms.any (fun T => decide (T.form_kind = FormKind.boundary))⟩ := by
  have hlen : forms.length ≠ 0 := fun e => h (List.length_eq_zero.1 e)
  have h1 := Forms.get_form_kinds_aux forms a
  have h2 := Forms.get_form_kinds_aux forms ⟨false, false, false⟩
  rw [if_pos hlen] at h1 h2
  refine ⟨h1, ?_⟩
  rw [h2]
  simp

/-- C4 at the list of the two interior-cell Terms of the accepting example, started
from an array that already has the boundary entry set. -/
theorem get_form_kinds_presence_witness :
    Forms.accepted_example ≠ [] ∧
    Forms.get_form_kinds Forms.accepted_example ⟨false, false, true⟩ =
      some ⟨true, false, true⟩ ∧
    Forms.get_form_kinds Forms.accepted_example ⟨false, false, false⟩ =
      some ⟨true, false, false⟩ :=
  ⟨by decide,
    (get_form_kinds_presence Forms.accepted_example (by decide) ⟨false, false, true⟩).1,
    (get_form_kinds_presence Forms.accepted_example (by decide) ⟨false, false, true⟩).2⟩

theorem Forms.integrate_aux (forms : List Form) :
    ∀ phi : FEEvaluation,
      (if forms.length ≠ 0 then Forms.integrate forms phi else some phi) =
        some (phi ++ forms.map (fun T =>
          Call.integrate T.fe_number T.integrate_value T.integrate_gradient)) := by
  induction forms with
  | nil => intro phi; simp
  | cons T rest ih =>
    intro phi
    simp only [List.length_cons, ne_eq, Nat.add_one_ne_zero, not_false_eq_true, if_true,
      Forms.integrate]
    rw [ih]
    simp [Forms.fe_number, Forms.integrate_value, Forms.integrate_gradient]

/-- C8: on a non-empty Term List of `n` Terms `integrate` makes exactly `n` evaluator
calls, `integrate<fe_number(T_i)>(integrate_value(T_i), integrate_gradient(T_i))` for
`i = 0..n-1` in list order, whatever the classification of the Terms. -/
theorem integrate_one_call_per_term (forms : List Form) (h : forms ≠ [])
    (phi : FEEvaluation) :
    Forms.integrate forms phi =
      some (phi ++ forms.map (fun T =>
        Call.integrate T.fe_number T.integrate_value T.integrate_gradient)) ∧
    (forms.map (fun T =>
        Call.integrate T.fe_number T.integrate_value T.integrate_gradient)).length =
      forms.length := by
  have hlen : forms.length ≠ 0 := fun e => h (List.length_eq_zero.1 e)
  have h1 := Forms.integrate_aux forms phi
  rw [if_pos hlen] at h1
  exact ⟨h1, List.length_map _ _⟩

/-- C8 at the list of a cell Term followed by a boundary Term. -/
theorem integrate_one_call_per_term_witness :
    (Forms.accepted_example ++ [Forms.boundary_example]) ≠ [] ∧
    Forms.integrate (Forms.accepted_example ++ [Forms.boundary_example]) [] =
      some [Call.integrate 0 true false, Call.integrate 1 false true,
        Call.integrate 0 true false] :=
  ⟨by decide,
    (integrate_one_call_per_term (Forms.accepted_example ++ [Forms.boundary_example])
      (by decide) []).1⟩

theorem Forms.set_integration_flags_aux (forms : List Form) :
    ∀ phi : FEEvaluation,
      (if forms.length ≠ 0 then Forms.set_integration_flags forms phi else some phi) =
        some (phi ++ (Forms.of_kind FormKind.cell forms).map (fun T =>
          Call.set_integration_flags T.test.index T.test.integration_flags.value
            T.test.integration_flags.gradient)) := by
  induction forms with
  | nil => intro phi; simp [Forms.of_kind]
  | cons T rest ih =>
    intro phi
    simp only [List.length_cons, ne_eq, Nat.add_one_ne_zero, not_false_eq_true, if_true,
      Forms.set_integration_flags, Forms.form_kind]
    rw [ih]
    by_cases hk : T.form_kind = FormKind.cell
    · simp [Forms.of_kind, hk, Forms.fe_number, Form.fe_number, Forms.integrate_value,
        Form.integrate_value, Forms.integrate_gradient, Form.integrate_gradient]
    · simp [Forms.of_kind, hk]

theorem Forms.set_integration_flags_face_aux (forms : List Form) :
    ∀ phi : FEEvaluation,
      (if forms.length ≠ 0 then Forms.set_integration_flags_face forms phi else some phi) =
        some (phi ++ (Forms.of_kind FormKind.face forms).map (fun T =>
          Call.set_integration_flags_face_and_boundary T.test.index
            T.test.integration_flags.value T.test.integration_flags.value_exterior
            T.test.integration_flags.gradient
            T.test.integration_flags.gradient_exterior)) := by
  induction forms with
  | nil => intro phi; simp [Forms.of_kind]
  | cons T rest ih =>
    intro phi
    simp only [List.length_cons, ne_eq, Nat.add_one_ne_zero, not_false_eq_true, if_true,
      Forms.set_integration_flags_face, Forms.form_kind]
    rw [ih]
    by_cases hk : T.form_kind = FormKind.face
    · simp [Forms.of_kind, hk, Forms.fe_number, Form.fe_number, Forms.integrate_value,
        Form.integrate_value, Forms.integrate_gradient, Form.integrate_gradient,
        Forms.integrate_value_exterior, Form.integrate_value_exterior,
        Forms.integrate_gradient_exterior, Form.integrate_gradient_exterior,
        Forms.form_kind]
    · simp [Forms.of_kind, hk]

theorem Forms.set_integration_flags_boundary_aux (forms : List Form) :
    ∀ phi : FEEvaluation,
      (if forms.length ≠ 0 then Forms.set_integration_flags_boundary forms phi
        else some phi) =
        some (phi ++ (Forms.of_kind FormKind.boundary forms).map (fun T =>
          Call.set_integration_flags_face_and_boundary T.test.index
            T.test.integration_flags.value false
            T.test.integration_flags.gradient false)) := by
  induction forms with
  | nil => intro phi; simp [Forms.of_kind]
  | cons T rest ih =>
    intro phi
    simp only [List.length_cons, ne_eq, Nat.add_one_ne_zero, not_false_eq_true, if_true,
      Forms.set_integration_flags_boundary, Forms.form_kind]
    rw [ih]
    by_cases hk : T.form_kind = FormKind.boundary
    · simp [Forms.of_kind, hk, Forms.fe_number, Form.fe_number, Forms.integrate_value,
        Form.integrate_value, Forms.integrate_gradient, Form.integrate_gradient,
        Forms.integrate_value_exterior, Form.integrate_value_exterior,
        Forms.integrate_gradient_exterior, Form.integrate_gradient_exterior,
        Forms.form_kind]
    · simp [Forms.of_kind, hk]

/-- C7, counterexample: a boundary-face Term whose integration flags have the
exterior-side capabilities set does not get them passed on.  On the one-Term list of
`boundary_example` (flags value, value_exterior, gradient_exterior) the call made by
`set_integration_flags_boundary` carries `false` for both exterior-side arguments,
not the Term's flags. -/
theorem set_integration_flags_boundary_drops_exterior :
    Forms.set_integration_flags_boundary [Forms.boundary_example] [] =
      some [Call.set_integration_flags_face_and_boundary 0 true false false false] ∧
    Forms.set_integration_flags_boundary [Forms.boundary_example] [] ≠
      some [Call.set_integration_flags_face_and_boundary
        Forms.boundary_example.test.index
        Forms.boundary_example.test.integration_flags.value
        Forms.boundary_example.test.integration_flags.value_exterior
        Forms.boundary_example.test.integration_flags.gradient
        Forms.boundary_example.test.integration_flags.gradient_exterior] := by
  decide

/-- C7, amended: on a non-empty Term List the three operations make exactly one
evaluator call per Term of classification cell / face / boundary respectively, in
list order, and none for any other Term.  A cell Term yields
`set_integration_flags<fe_number>(value, gradient)`, a face Term yields
`set_integration_flags_face_and_boundary<fe_number>(value, value_exterior, gradient,
gradient_exterior)`, and a boundary Term yields
`set_integration_flags_face_and_boundary<fe_number>(value, false, gradient, false)`,
with the Term's own target index and integration flags. -/
theorem set_integration_flags_calls (forms : List Form) (h : forms ≠ [])
    (phi : FEEvaluation) :
    Forms.set_integration_flags forms phi =
      some (phi ++ (Forms.of_kind FormKind.cell forms).map (fun T =>
        Call.set_integration_flags T.test.index T.test.integration_flags.value
          T.test.integration_flags.gradient)) ∧
    Forms.set_integration_flags_face forms phi =
      some (phi ++ (Forms.of_kind FormKind.face forms).map (fun T =>
        Call.set_integration_flags_face_and_boundary T.test.index
          T.test.integration_flags.value T.test.integration_flags.value_exterior
          T.test.integration_flags.gradient T.test.integration_flags.gradient_exterior)) ∧
    Forms.set_integration_flags_boundary forms phi =
      some (phi ++ (Forms.of_kind FormKind.boundary forms).map (fun T =>
        Call.set_integration_flags_face_and_boundary T.test.index
          T.test.integration_flags.value false
          T.test.integration_flags.gradient false)) := by
  have hlen : forms.length ≠ 0 := fun e => h (List.length_eq_zero.1 e)
  have h1 := Forms.set_integration_flags_aux forms phi
  have h2 := Forms.set_integration_flags_face_aux forms phi
  have h3 := Forms.set_integration_flags_boundary_aux forms phi
  rw [if_pos hlen] at h1 h2 h3
  exact ⟨h1, h2, h3⟩

/-- C7, amended, at the list cell, cell, boundary: two calls for the cell traversal,
none for the face traversal, one for the boundary traversal. -/
theorem set_integration_flags_calls_witness :
    (Forms.accepted_example ++ [Forms.boundary_example]) ≠ [] ∧
    Forms.set_integration_flags (Forms.accepted_example ++ [Forms.boundary_example]) [] =
      some [Call.set_integration_flags 0 true false,
        Call.set_integration_flags 1 false true] ∧
    Forms.set_integration_flags_face
      (Forms.accepted_example ++ [Forms.boundary_example]) [] = some [] ∧
    Forms.set_integration_flags_boundary
      (Forms.accepted_example ++ [Forms.boundary_example]) [] =
      some [Call.set_integration_flags_face_and_boundary 0 true false false false] :=
  ⟨by decide,
    set_integration_flags_calls (Forms.accepted_example ++ [Forms.boundary_example])
      (by decide) []⟩

/-- C9: on a single Term, `evaluate` (resp. `evaluate_face`, `evaluate_boundary`)
makes, when the Term's classification is cell (resp. face, boundary), exactly the
two calls `value = expr.value(phi, q)` and then `Test::submit(phi, q, value)` with
that value, and makes no call for a Term of any other classification. -/
theorem form_evaluate_calls (ev : ValueOracle) (f : Form) (phi : FEEvaluation) (q : Nat) :
    f.evaluate ev phi q =
      (if f.form_kind = FormKind.cell then
        phi ++ [Call.value f.expr q, Call.submit f.test q (ev f.expr phi q)]
      else phi) ∧
    f.evaluate_face ev phi q =
      (if f.form_kind = FormKind.face then
        phi ++ [Call.value f.expr q, Call.submit f.test q (ev f.expr phi q)]
      else phi) ∧
    f.evaluate_boundary ev phi q =
      (if f.form_kind = FormKind.boundary then
        phi ++ [Call.value f.expr q, Call.submit f.test q (ev f.expr phi q)]
      else phi) := by
  refine ⟨?_, ?_, ?_⟩
  · by_cases hk : f.form_kind = FormKind.cell <;>
      simp [Form.evaluate, hk, Expr.value, Test.submit]
  · by_cases hk : f.form_kind = FormKind.face <;>
      simp [Form.evaluate_face, hk, Expr.value, Test.submit]
  · by_cases hk : f.form_kind = FormKind.boundary <;>
      simp [Form.evaluate_boundary, hk, Expr.value, Test.submit]

theorem Forms.set_evaluation_flags_aux (forms : List Form) :
    ∀ phi : FEEvaluation,
      (if forms.length ≠ 0 then Forms.set_evaluation_flags forms phi else some phi) =
        some (phi ++ (forms.filter (fun T => decide (T.form_kind = FormKind.cell))).map
          (fun T => Call.set_evaluation_flags T.expr)) := by
  induction forms with
  | nil => intro phi; simp
  | cons T rest ih =>
    intro phi
    simp only [List.length_cons, ne_eq, Nat.add_one_ne_zero, not_false_eq_true, if_true,
      Forms.set_evaluation_flags, Forms.form_kind]
    rw [ih]
    by_cases hk : T.form_kind = FormKind.cell
    · simp [hk, Expr.set_evaluation_flags]
    · simp [hk]

theorem Forms.set_evaluation_flags_face_aux (forms : List Form) :
    ∀ phi : FEEvaluation,
      (if forms.length ≠ 0 then Forms.set_evaluation_flags_face forms phi else some phi) =
        some (phi ++ (forms.filter (fun T =>
            decide (T.form_kind = FormKind.face ∨ T.form_kind = FormKind.boundary))).map
          (fun T => Call.set_evaluation_flags T.expr)) := by
  induction forms with
  | nil => intro phi; simp
  | cons T rest ih =>
    intro phi
    simp only [List.length_cons, ne_eq, Nat.add_one_ne_zero, not_false_eq_true, if_true,
      Forms.set_evaluation_flags_face, Forms.form_kind]
    rw [ih]
    by_cases hk : T.form_kind = FormKind.face ∨ T.form_kind = FormKind.boundary
    · simp [hk, Expr.set_evaluation_flags]
    · simp [hk]

/-- C10, counterexample: `set_evaluation_flags_face` is not a no-op for a
boundary-face Term.  On `boundary_example` the single-Term operation and the
operation of the one-Term list both delegate to the expression tree. -/
theorem set_evaluation_flags_face_on_boundary :
    Form.set_evaluation_flags_face Forms.boundary_example [] =
      [Call.set_evaluation_flags Forms.boundary_example.expr] ∧
    Forms.set_evaluation_flags_face [Forms.boundary_example] [] =
      some [Call.set_evaluation_flags Forms.boundary_example.expr] ∧
    Form.set_integration_flags_face Forms.boundary_example [] = [] := by
  decide

/-- C10, amended: `set_evaluation_flags` delegates to the expression tree exactly
when the Term is interior-cell, as `set_integration_flags` is gated;
`set_evaluation_flags_face` delegates exactly when the Term is interface-face or
boundary-face, and is a no-op only for a cell Term.  This holds for the single Term
and for every Term visited, in list order, by the versions of a non-empty Term
List. -/
theorem set_evaluation_flags_gating (f : Form) (forms : List Form) (h : forms ≠ [])
    (phi : FEEvaluation) :
    f.set_evaluation_flags phi =
      (if f.form_kind = FormKind.cell then phi ++ [Call.set_evaluation_flags f.expr]
        else phi) ∧
    f.set_evaluation_flags_face phi =
      (if f.form_kind = FormKind.face ∨ f.form_kind = FormKind.boundary then
        phi ++ [Call.set_evaluation_flags f.expr]
      else phi) ∧
    Forms.set_evaluation_flags forms phi =
      some (phi ++ (forms.filter (fun T => decide (T.form_kind = FormKind.cell))).map
        (fun T => Call.set_evaluation_flags T.expr)) ∧
    Forms.set_evaluation_flags_face forms phi =
      some (phi ++ (forms.filter (fun T =>
          decide (T.form_kind = FormKind.face ∨ T.form_kind = FormKind.boundary))).map
        (fun T => Call.set_evaluation_flags T.expr)) := by
  have hlen : forms.length ≠ 0 := fun e => h (List.length_eq_zero.1 e)
  have h1 := Forms.set_evaluation_flags_aux forms phi
  have h2 := Forms.set_evaluation_flags_face_aux forms phi
  rw [if_pos hlen] at h1 h2
  refine ⟨?_, ?_, h1, h2⟩
  · simp [Form.set_evaluation_flags, Expr.set_evaluation_flags]
  · simp [Form.set_evaluation_flags_face, Expr.set_evaluation_flags]

/-- C10, amended, at the boundary Term and the list cell, cell, boundary. -/
theorem set_evaluation_flags_gating_witness :
    (Forms.accepted_example ++ [Forms.boundary_example]) ≠ [] ∧
    Form.set_evaluation_flags Forms.boundary_example [] = [] ∧
    Form.set_evaluation_flags_face Forms.boundary_example [] =
      [Call.set_evaluation_flags ⟨0⟩] ∧
    Forms.set_evaluation_flags (Forms.accepted_example ++ [Forms.boundary_example]) [] =
      some [Call.set_evaluation_flags ⟨0⟩, Call.set_evaluation_flags ⟨1⟩] ∧
    Forms.set_evaluation_flags_face
      (Forms.accepted_example ++ [Forms.boundary_example]) [] =
      some [Call.set_evaluation_flags ⟨0⟩] :=
  ⟨by decide,
    set_evaluation_flags_gating Forms.boundary_example
      (Forms.accepted_example ++ [Forms.boundary_example]) (by decide) []⟩

theorem Forms.evaluate_aux (ev : ValueOracle) (q : Nat) (forms : List Form) :
    ∀ phi : FEEvaluation,
      (if forms.length ≠ 0 then Forms.evaluate ev forms phi q else some phi) =
        some (phi ++ (Forms.of_kind FormKind.cell forms).map (fun T => Call.value T.expr q) ++
          (Forms.submit_calls ev q phi (Forms.of_kind FormKind.cell forms)).reverse) := by
  induction forms with
  | nil => intro phi; simp [Forms.of_kind, Forms.submit_calls]
  | cons T rest ih =>
    intro phi
    by_cases hk : T.form_kind = FormKind.cell
    · simp only [List.length_cons, ne_eq, Nat.add_one_ne_zero, not_false_eq_true, if_true,
        Forms.evaluate, Forms.form_kind, hk, Form.value, Expr.value]
      rw [ih]
      simp [Forms.of_kind, hk, Forms.submit_calls, Form.submit, Test.submit]
    · simp only [List.length_cons, ne_eq, Nat.add_one_ne_zero, not_false_eq_true, if_true,
        Forms.evaluate, Forms.form_kind, hk, if_false]
      rw [ih]
      simp [Forms.of_kind, hk]

theorem Forms.evaluate_face_aux (ev : ValueOracle) (q : Nat) (forms : List Form) :
    ∀ phi : FEEvaluation,
      (if forms.length ≠ 0 then Forms.evaluate_face ev forms phi q else some phi) =
        some (phi ++ (Forms.of_kind FormKind.face forms).map (fun T => Call.value T.expr q) ++
          (Forms.submit_calls ev q phi (Forms.of_kind FormKind.face forms)).reverse) := by
  induction forms with
  | nil => intro phi; simp [Forms.of_kind, Forms.submit_calls]
  | cons T rest ih =>
    intro phi
    by_cases hk : T.form_kind = FormKind.face
    · simp only [List.length_cons, ne_eq, Nat.add_one_ne_zero, not_false_eq_true, if_true,
        Forms.evaluate_face, Forms.form_kind, hk, Form.value, Expr.value]
      rw [ih]
      simp [Forms.of_kind, hk, Forms.submit_calls, Form.submit, Test.submit]
    · simp only [List.length_cons, ne_eq, Nat.add_one_ne_zero, not_false_eq_true, if_true,
        Forms.evaluate_face, Forms.form_kind, hk, if_false]
      rw [ih]
      simp [Forms.of_kind, hk]

theorem Forms.evaluate_boundary_aux (ev : ValueOracle) (q : Nat) (forms : List Form) :
    ∀ phi : FEEvaluation,
      (if forms.length ≠ 0 then Forms.evaluate_boundary ev forms phi q else some phi) =
        some (phi ++ (Forms.of_kind FormKind.boundary forms).map (fun T => Call.value T.expr q) ++
          (Forms.submit_calls ev q phi (Forms.of_kind FormKind.boundary forms)).reverse) := by
  induction forms with
  | nil => intro phi; simp [Forms.of_kind, Forms.submit_calls]
  | cons T rest ih =>
    intro phi
    by_cases hk : T.form_kind = FormKind.boundary
    · simp only [List.length_cons, ne_eq, Nat.add_one_ne_zero, not_false_eq_true, if_true,
        Forms.evaluate_boundary, Forms.form_kind, hk, Form.value, Expr.value]
      rw [ih]
      simp [Forms.of_kind, hk, Forms.submit_calls, Form.submit, Test.submit]
    · simp only [List.length_cons, ne_eq, Nat.add_one_ne_zero, not_false_eq_true, if_true,
        Forms.evaluate_boundary, Forms.form_kind, hk, if_false]
      rw [ih]
      simp [Forms.of_kind, hk]

/-- C3, counterexample: the empty Term List `Forms<>` declares none of the three
traversals, so on it there is no run and no call sequence. -/
theorem evaluate_undeclared_on_empty :
    Forms.evaluate Forms.oracle_example [] [] 0 = none ∧
    Forms.evaluate_face Forms.oracle_example [] [] 0 = none ∧
    Forms.evaluate_boundary Forms.oracle_example [] [] 0 = none := by
  decide

/-- C3, amended: for every non-empty Term List and each of the traversals
`evaluate` / `evaluate_face` / `evaluate_boundary`, the evaluator sees `value(T)` for
every Term `T` of the matching classification (cell / face / boundary) in list
order, followed by `submit(T)` for the same Terms in reverse list order, each submit
carrying the value computed for that same Term; Terms of another classification
contribute no call.  For a two-Term interior-cell list `T0, T1` the trace is
`value(T0), value(T1), submit(T1), submit(T0)`. -/
theorem evaluate_value_then_submit_reversed (ev : ValueOracle) (forms : List Form)
    (h : forms ≠ []) (phi : FEEvaluation) (q : Nat) :
    Forms.evaluate ev forms phi q =
      some (phi ++ (Forms.of_kind FormKind.cell forms).map (fun T => Call.value T.expr q) ++
        (Forms.submit_calls ev q phi (Forms.of_kind FormKind.cell forms)).reverse) ∧
    Forms.evaluate_face ev forms phi q =
      some (phi ++ (Forms.of_kind FormKind.face forms).map (fun T => Call.value T.expr q) ++
        (Forms.submit_calls ev q phi (Forms.of_kind FormKind.face forms)).reverse) ∧
    Forms.evaluate_boundary ev forms phi q =
      some (phi ++
        (Forms.of_kind FormKind.boundary forms).map (fun T => Call.value T.expr q) ++
        (Forms.submit_calls ev q phi (Forms.of_kind FormKind.boundary forms)).reverse) ∧
    (∀ T0 T1 : Form, T0.form_kind = FormKind.cell → T1.form_kind = FormKind.cell →
      Forms.evaluate ev [T0, T1] phi q =
        some (phi ++ [Call.value T0.expr q, Call.value T1.expr q,
          Call.submit T1.test q (ev T1.expr (phi ++ [Call.value T0.expr q]) q),
          Call.submit T0.test q (ev T0.expr phi q)])) := by
  have hlen : forms.length ≠ 0 := fun e => h (List.length_eq_zero.1 e)
  have h1 := Forms.evaluate_aux ev q forms phi
  have h2 := Forms.evaluate_face_aux ev q forms phi
  have h3 := Forms.evaluate_boundary_aux ev q forms phi
  rw [if_pos hlen] at h1 h2 h3
  refine ⟨h1, h2, h3, ?_⟩
  intro T0 T1 h0 h1
  have h4 := Forms.evaluate_aux ev q [T0, T1] phi
  rw [if_pos (by simp)] at h4
  rw [h4]
  simp [Forms.of_kind, h0, h1, Forms.submit_calls]

/-- C3, amended, at the list cell, cell, boundary with quadrature index 2: the cell
traversal computes both cell values and submits them in reverse; the boundary
traversal touches only the boundary Term. -/
theorem evaluate_value_then_submit_reversed_witness :
    (Forms.accepted_example ++ [Forms.boundary_example]) ≠ [] ∧
    Forms.evaluate Forms.oracle_example
        (Forms.accepted_example ++ [Forms.boundary_example]) [] 2 =
      some [Call.value ⟨0⟩ 2, Call.value ⟨1⟩ 2,
        Call.submit ⟨1, ⟨false, false, true, false⟩⟩ 2 211,
        Call.submit ⟨0, ⟨true, false, false, false⟩⟩ 2 200] ∧
    Forms.evaluate_face Forms.oracle_example
        (Forms.accepted_example ++ [Forms.boundary_example]) [] 2 = some [] ∧
    Forms.evaluate_boundary Forms.oracle_example
        (Forms.accepted_example ++ [Forms.boundary_example]) [] 2 =
      some [Call.value ⟨0⟩ 2, Call.submit ⟨0, ⟨true, true, false, true⟩⟩ 2 200] :=
  ⟨by decide,
    (evaluate_value_then_submit_reversed Forms.oracle_example
      (Forms.accepted_example ++ [Forms.boundary_example]) (by decide) [] 2).1,
    (evaluate_value_then_submit_reversed Forms.oracle_example
      (Forms.accepted_example ++ [Forms.boundary_example]) (by decide) [] 2).2.1,
    (evaluate_value_then_submit_reversed Forms.oracle_example
      (Forms.accepted_example ++ [Forms.boundary_example]) (by decide) [] 2).2.2.1⟩

end CFL

/-! ## The loop unroller: the flat loop -/

namespace static_for_impl

theorem flat_for.flat_next_mono (func : Nat → Option (List Nat)) (e : Nat) :
    ∀ (steps i : Nat) (R : List Nat), flat_for.flat_next func e steps i = some R →
      ∀ steps2, steps ≤ steps2 → flat_for.flat_next func e steps2 i = some R := by
  intro steps
  induction steps with
  | zero => intro i R h; simp [flat_for.flat_next] at h
  | succ n ih =>
    intro i R h steps2 hle
    obtain ⟨m, rfl⟩ : ∃ m, steps2 = m + 1 := ⟨steps2 - 1, by omega⟩
    rw [flat_for.flat_next] at h ⊢
    by_cases hi : i = sz_add e 1
    · rw [if_pos hi] at h ⊢; exact h
    · rw [if_neg hi] at h ⊢
      cases hf : func i with
      | none => rw [hf] at h; simp at h
      | some out =>
        rw [hf] at h
        simp only at h ⊢
        cases hr : flat_for.flat_next func e n (sz_add i 1) with
        | none => rw [hr] at h; simp at h
        | some rest =>
          rw [hr] at h
          rw [ih _ _ hr m (by omega)]
          exact h

/-- A stretch of `n` consecutive indices, none of them the terminating index, on
each of which `func` is instantiated: `flat_next` runs `func` on each in turn and
continues after the stretch. -/
theorem flat_for.flat_next_segment (func : Nat → Option (List Nat)) (e : Nat)
    (g : Nat → List Nat) :
    ∀ (n steps i : Nat) (R : List Nat),
      (∀ j, i ≤ j → j < i + n →
        j < 18446744073709551616 ∧ j ≠ sz_add e 1 ∧ func j = some (g j)) →
      flat_for.flat_next func e steps ((i + n) % 18446744073709551616) = some R →
      flat_for.flat_next func e (steps + n) (i % 18446744073709551616) =
        some (((List.range' i n).map g).flatten ++ R) := by
  intro n
  induction n with
  | zero =>
    intro steps i R _ h
    simpa using h
  | succ n ih =>
    intro steps i R hj h
    obtain ⟨hlt, hne, hf⟩ := hj i (Nat.le_refl _) (by omega)
    have hmod : i % 18446744073709551616 = i := Nat.mod_eq_of_lt hlt
    have hstep : steps + (n + 1) = (steps + n) + 1 := by omega
    rw [hmod, hstep, flat_for.flat_next, if_neg hne, hf]
    have hnext : sz_add i 1 = (i + 1) % 18446744073709551616 := rfl
    have hrec := ih steps (i + 1) R
      (fun j h1 h2 => hj j (by omega) (by omega))
      (by rw [show i + 1 + n = i + (n + 1) by omega]; exact h)
    simp only [hnext, hrec, List.range'_succ, List.map_cons, List.flatten_cons,
      List.append_assoc]

/-- The flat loop over `flat_start .. flat_end`: when `func` is instantiated on every
index of the closed range, the loop runs it on each index once, in ascending order,
and stops. -/
theorem flat_for.flat_loop_closed (func : Nat → Option (List Nat)) (g : Nat → List Nat)
    (s e n : Nat) (he : e < 18446744073709551616) (hs : s < 18446744073709551616)
    (hn : s + n = e + 1) (hwrap : e + 1 < 18446744073709551616 ∨ 0 < s)
    (hf : ∀ j, s ≤ j → j ≤ e → func j = some (g j)) :
    flat_for.flat_loop func s e = some ((List.range' s n).map g).flatten := by
  have hterm : flat_for.flat_next func e 1 ((s + n) % 18446744073709551616) = some [] := by
    rw [flat_for.flat_next, hn]
    simp [sz_add]
  have hseg := flat_for.flat_next_segment func e g n 1 s []
    (by
      intro j h1 h2
      refine ⟨by omega, ?_, hf j h1 (by omega)⟩
      unfold sz_add
      omega)
    hterm
  rw [Nat.mod_eq_of_lt hs, List.append_nil] at hseg
  exact flat_for.flat_next_mono func e _ _ _ hseg _ (by omega)

end static_for_impl

/-! ## The loop unroller: arithmetic of the partition -/

theorem ceil_div_mul_ge (c m : Nat) (hm : 0 < m) : c ≤ ceil_div c m * m := by
  have h1 := Nat.div_add_mod c m
  have h2 := Nat.mod_lt c hm
  have h3 : m * (c / m) = c / m * m := Nat.mul_comm _ _
  unfold ceil_div
  split_ifs with h
  · rw [Nat.add_mul]; omega
  · rw [Nat.add_mul]; omega

theorem ceil_div_mul_lt (c m : Nat) (hm : 0 < m) : ceil_div c m * m < c + m := by
  have h1 := Nat.div_add_mod c m
  have h2 := Nat.mod_lt c hm
  have h3 : m * (c / m) = c / m * m := Nat.mul_comm _ _
  unfold ceil_div
  split_ifs with h
  · rw [Nat.add_mul]; omega
  · rw [Nat.add_mul]; omega

theorem ceil_div_pos (c m : Nat) (hm : 0 < m) (hc : 0 < c) : 1 ≤ ceil_div c m := by
  have h := ceil_div_mul_ge c m hm
  rcases Nat.eq_zero_or_pos (ceil_div c m) with h0 | h0
  · rw [h0] at h; omega
  · exact h0

theorem ceil_div_le (c m : Nat) (hm : 0 < m) : ceil_div c m ≤ c := by
  have h := ceil_div_mul_lt c m hm
  by_contra hcon
  have h1 : (c + 1) * m ≤ ceil_div c m * m := Nat.mul_le_mul_right m (by omega)
  have h2 : (c + 1) * m = c * m + m := by rw [Nat.add_mul, Nat.one_mul]
  have h3 : c * 1 ≤ c * m := Nat.mul_le_mul_left c hm
  omega

/-- The arithmetic behind the children of a point of length `c > W`: with
`k = min (ceil (c / W)) W` children of nominal length `p = ceil (c / k)`, there are
at least two and at most `W` children, the first `k - 1` of them fit strictly inside
the point, and `k` of them cover it. -/
theorem partition_arith (c W : Nat) (hW : 2 ≤ W) (hc : W < c) :
    ∃ k' p, (if ceil_div c W > W then W else ceil_div c W) = k' + 1 ∧ 1 ≤ k' ∧ k' + 1 ≤ W ∧
      ceil_div c (k' + 1) = p ∧ 1 ≤ p ∧ p * k' < c ∧ c ≤ p * (k' + 1) := by
  have hP1 := ceil_div_mul_ge c W (by omega)
  have hP2 := ceil_div_mul_lt c W (by omega)
  have hP3 : 2 ≤ ceil_div c W := by
    by_contra hcon
    have : ceil_div c W * W ≤ 1 * W := Nat.mul_le_mul_right W (by omega)
    omega
  by_cases hbig : ceil_div c W > W
  · rw [if_pos hbig]
    refine ⟨W - 1, ceil_div c W, by omega, by omega, by omega, ?_, by omega, ?_, ?_⟩
    · rw [show W - 1 + 1 = W by omega]
    · have h1 : ceil_div c W * (W - 1) + ceil_div c W = ceil_div c W * W := by
        rw [← Nat.mul_succ]
        congr 1
        omega
      omega
    · rw [show W - 1 + 1 = W by omega]; exact hP1
  · rw [if_neg hbig]
    obtain ⟨k', hk'⟩ : ∃ k', ceil_div c W = k' + 1 := ⟨ceil_div c W - 1, by omega⟩
    have hp1 := ceil_div_mul_ge c (k' + 1) (by omega)
    have hp2 := ceil_div_mul_lt c (k' + 1) (by omega)
    have hp3 := ceil_div_pos c (k' + 1) (by omega) (by omega)
    refine ⟨k', ceil_div c (k' + 1), hk', by omega, by omega, rfl, hp3, ?_, ?_⟩
    · have hpW : ceil_div c (k' + 1) ≤ W := by
        by_contra hcon
        have h1 : (W + 1) * (k' + 1) ≤ ceil_div c (k' + 1) * (k' + 1) :=
          Nat.mul_le_mul_right _ (by omega)
        have h2 : (W + 1) * (k' + 1) = (k' + 1) * W + (k' + 1) := by ring
        rw [hk'] at hP1
        omega
      have h3 : ceil_div c (k' + 1) * k' ≤ W * k' := Nat.mul_le_mul_right _ hpW
      have h4 : (k' + 1) * W = W * k' + W := by ring
      rw [hk'] at hP2
      omega
    · exact hp1

theorem sz_add_eq (a b : Nat) (h : a + b < 18446744073709551616) : sz_add a b = a + b :=
  Nat.mod_eq_of_lt h

theorem sz_sub_eq (a b : Nat) (hb : b ≤ a) (ha : a < 18446744073709551616) :
    sz_sub a b = a - b := by
  unfold sz_sub
  omega

theorem sz_mul_eq (a b : Nat) (h : a * b < 18446744073709551616) : sz_mul a b = a * b :=
  Nat.mod_eq_of_lt h

namespace static_for_impl

theorem point.count_eq (s e : Nat) (hs : s ≤ e) (he : e < 18446744073709551616)
    (hc : e - s + 1 < 18446744073709551616) : point.count_ ⟨s, e⟩ = e - s + 1 := by
  unfold point.count_ sz_add sz_sub
  simp only
  omega

theorem point.points_in_sequence_eq (pt : point) (m : Nat) (hm : 0 < m)
    (hc : pt.count_ < 18446744073709551616) :
    pt.points_in_sequence m = some (ceil_div pt.count_ m) := by
  have hle := ceil_div_le pt.count_ m hm
  unfold point.points_in_sequence
  rw [if_neg (by omega)]
  congr 1
  apply sz_add_eq
  unfold ceil_div at hle
  omega

/-- The children of a point `[s, e]` of length `c > W`, for `W ≥ 2`: there are
`k' + 1` of them, `2 ≤ k' + 1 ≤ W`; child `i` starts at `s + p * i`; every child but
the last has length `p`, and the last ends at `e`. -/
theorem point.children (W s e c : Nat) (hW : 2 ≤ W) (hs : s ≤ e)
    (he : e < 18446744073709551616) (hcdef : e - s + 1 = c)
    (hcM : c < 18446744073709551616) (hc : W < c) :
    ∃ k' p, 1 ≤ k' ∧ k' + 1 ≤ W ∧ 1 ≤ p ∧ p * k' < c ∧ c ≤ p * (k' + 1) ∧
      point.sequence_count W ⟨s, e⟩ = some (k' + 1) ∧
      ∀ i, i ≤ k' → point.child_point W ⟨s, e⟩ i =
        some ⟨s + p * i, if i = k' then e else s + p * (i + 1) - 1⟩ := by
  obtain ⟨k', p, hk, hk1, hkW, hp, hp1, hlt, hge⟩ := partition_arith c W hW hc
  have hcount : point.count_ ⟨s, e⟩ = c := by
    rw [point.count_eq s e hs he (by omega), hcdef]
  have hseq : point.sequence_count W ⟨s, e⟩ = some (k' + 1) := by
    unfold point.sequence_count
    rw [point.points_in_sequence_eq _ W (by omega) (by omega), hcount]
    simp only
    rw [hk]
  have hpis : point.points_in_sequence ⟨s, e⟩ (k' + 1) = some p := by
    rw [point.points_in_sequence_eq _ (k' + 1) (by omega) (by omega), hcount, hp]
  have hend : ∀ i, i ≤ k' → point.child_end W ⟨s, e⟩ i =
      some (if i = k' then e else s + p * (i + 1) - 1) := by
    intro i hi
    unfold point.child_end
    rw [hseq]
    simp only
    rw [sz_sub_eq (k' + 1) 1 (by omega) (by omega), Nat.add_sub_cancel]
    by_cases hik : i = k'
    · rw [if_pos hik, if_pos hik]
    · rw [if_neg hik, if_neg hik, hpis]
      simp only
      have hmul : p * (i + 1) ≤ p * k' := Nat.mul_le_mul_left p (by omega)
      have hpos : 1 ≤ p * (i + 1) := Nat.mul_pos (by omega) (by omega)
      rw [sz_add_eq i 1 (by omega), sz_mul_eq p (i + 1) (by omega),
        sz_add_eq s (p * (i + 1)) (by omega), hcount, if_pos (by omega),
        sz_sub_eq _ 1 (by omega) (by omega)]
  refine ⟨k', p, hk1, hkW, hp1, hlt, hge, hseq, ?_⟩
  intro i hi
  have hstart : point.child_start W ⟨s, e⟩ i = some (s + p * i) := by
    unfold point.child_start
    by_cases h0 : i = 0
    · rw [if_pos h0, h0]; simp
    · rw [if_neg h0, sz_sub_eq i 1 (by omega) (by omega), hend (i - 1) (by omega),
        if_neg (by omega)]
      simp only
      have hi1 : i - 1 + 1 = i := by omega
      rw [hi1]
      have hmul : p * i ≤ p * k' := Nat.mul_le_mul_left p hi
      have hpos : 1 ≤ p * i := Nat.mul_pos (by omega) (by omega)
      rw [sz_add_eq _ 1 (by omega)]
      congr 1
      omega
  unfold point.child_point
  rw [hstart, hend i hi]

end static_for_impl

/-! ## The loop unroller: the run of a point -/

namespace static_for_impl

theorem flatten_map_singleton (l : List Nat) : (l.map (fun j => [j])).flatten = l := by
  induction l with
  | nil => rfl
  | cons a l ih => simp [ih]

theorem flatten_chunks (s p : Nat) :
    ∀ m, ((List.range' 0 m).map (fun i => List.range' (s + p * i) p)).flatten =
      List.range' s (p * m) := by
  intro m
  induction m with
  | zero => simp
  | succ m ih =>
    rw [List.range'_1_concat, List.map_append, List.flatten_append, ih]
    simp only [Nat.zero_add, List.map_cons, List.map_nil, List.flatten_cons,
      List.flatten_nil, List.append_nil]
    rw [List.range'_append_1, Nat.mul_succ, Nat.add_comm]

/-- Consecutive children, the first `k'` of length `p` and a last one that takes the
remainder, make up the parent's range. -/
theorem flatten_children (s p k' c : Nat) (hlt : p * k' ≤ c) :
    ((List.range' 0 (k' + 1)).map
      (fun i => List.range' (s + p * i) (if i = k' then c - p * k' else p))).flatten =
      List.range' s c := by
  rw [List.range'_1_concat, List.map_append, List.flatten_append]
  have hfirst : (List.range' 0 k').map
      (fun i => List.range' (s + p * i) (if i = k' then c - p * k' else p)) =
      (List.range' 0 k').map (fun i => List.range' (s + p * i) p) := by
    apply List.map_congr_left
    intro i hi
    rw [List.mem_range'_1] at hi
    rw [if_neg (by omega)]
  rw [hfirst, flatten_chunks]
  simp only [Nat.zero_add, List.map_cons, List.map_nil, List.flatten_cons,
    List.flatten_nil, List.append_nil, if_true]
  rw [List.range'_append_1]
  congr 1
  omega

/-- An end point `[s, e]`, of length `c ≤ W`: the run invokes the functor on
`s, s + 1, .., e`. -/
theorem next_end_point (W s e c depth : Nat) (hs : s ≤ e)
    (he : e < 18446744073709551616) (hcdef : e - s + 1 = c)
    (hcM : c < 18446744073709551616) (hcW : c ≤ W) (hd : 0 < depth) :
    next W depth ⟨s, e⟩ = some (List.range' s c) := by
  obtain ⟨d, rfl⟩ : ∃ d, depth = d + 1 := ⟨depth - 1, by omega⟩
  have hcount := point.count_eq s e hs he (by omega)
  rw [next, if_pos (by simp only [point.is_end_point_, hcount, decide_eq_true_eq]; omega)]
  simp only
  rw [flat_for.flat_loop_closed (fun index => some [index]) (fun j => [j]) s e c he
    (by omega) (by omega) (by omega) (fun j _ _ => rfl), flatten_map_singleton]

/-- A point `[s, e]` of length `c`, with chunk width `W ≥ 2`: within nesting depth
`c` the run exists and invokes the functor on `s, s + 1, .., e`. -/
theorem next_closed_range (W : Nat) (hW : 2 ≤ W) :
    ∀ (c s e depth : Nat), s ≤ e → e < 18446744073709551616 → e - s + 1 = c →
      c < 18446744073709551616 → c ≤ depth →
      next W depth ⟨s, e⟩ = some (List.range' s c) := by
  intro c
  induction c using Nat.strong_induction_on with
  | _ c ih =>
    intro s e depth hs he hcdef hcM hd
    by_cases hcW : c ≤ W
    · exact next_end_point W s e c depth hs he hcdef hcM hcW (by omega)
    · obtain ⟨d, rfl⟩ : ∃ d, depth = d + 1 := ⟨depth - 1, by omega⟩
      obtain ⟨k', p, hk1, hkW, hp1, hlt, hge, hseq, hchild⟩ :=
        point.children W s e c hW hs he hcdef hcM (by omega)
      have hcount := point.count_eq s e hs he (by omega)
      have hpk : p * 1 ≤ p * k' := Nat.mul_le_mul_left p hk1
      rw [next,
        if_neg (by simp only [point.is_end_point_, hcount, decide_eq_true_eq]; omega), hseq]
      simp only
      rw [sz_sub_eq (k' + 1) 1 (by omega) (by omega), Nat.add_sub_cancel]
      rw [flat_for.flat_loop_closed _
        (fun i => List.range' (s + p * i) (if i = k' then c - p * k' else p))
        0 k' (k' + 1) (by omega) (by omega) (by omega) (Or.inl (by omega)) ?_]
      · rw [flatten_children s p k' c (by omega)]
      · intro j _ hj
        rw [hchild j hj]
        simp only
        by_cases hjk : j = k'
        · subst hjk
          rw [if_pos rfl, if_pos rfl]
          exact ih (c - p * j) (by omega) (s + p * j) e d (by omega) he (by omega)
            (by omega) (by omega)
        · rw [if_neg hjk, if_neg hjk]
          have hmul : p * (j + 1) ≤ p * k' := Nat.mul_le_mul_left p (by omega)
          have hsucc : p * (j + 1) = p * j + p := Nat.mul_succ p j
          exact ih p (by omega) (s + p * j) (s + p * (j + 1) - 1) d (by omega) (by omega)
            (by omega) (by omega) (by omega)

end static_for_impl

/-! ## The loop unroller: count form and range form -/

/-- With chunk width 1 the point `[0, 1]` is its own only child: no nesting depth
yields a run. -/
theorem static_for_impl.next_width_one_stuck :
    ∀ depth, static_for_impl.next 1 depth ⟨0, 1⟩ = none := by
  intro depth
  induction depth with
  | zero => rfl
  | succ d ih =>
    have h1 : static_for_impl.point.is_end_point_ 1 ⟨0, 1⟩ = false := by decide
    have h2 : static_for_impl.point.sequence_count 1 ⟨0, 1⟩ = some 1 := by decide
    have h3 : static_for_impl.point.child_point 1 ⟨0, 1⟩ 0 = some ⟨0, 1⟩ := by decide
    have h4 : sz_sub 1 1 = 0 := by decide
    have h5 : (18446744073709551617 : Nat) = 18446744073709551616 + 1 := rfl
    rw [static_for_impl.next, h1, h2]
    simp only [h4, Bool.false_eq_true, if_false]
    rw [static_for_impl.flat_for.flat_loop, h5, static_for_impl.flat_for.flat_next,
      if_neg (by decide), h3]
    simp only [ih]

/-- A point of length zero, `[e + 1, e]`, is an end point whose flat loop starts at
its terminating index: the run is empty, whatever the chunk width. -/
theorem static_for_impl.next_empty (W e depth : Nat) (he : e + 1 < 18446744073709551616) :
    static_for_impl.next W (depth + 1) ⟨e + 1, e⟩ = some [] := by
  have hcount : static_for_impl.point.count_ ⟨e + 1, e⟩ = 0 := by
    unfold static_for_impl.point.count_ sz_add sz_sub
    simp only
    omega
  have h5 : (18446744073709551617 : Nat) = 18446744073709551616 + 1 := rfl
  rw [static_for_impl.next,
    if_pos (by simp only [static_for_impl.point.is_end_point_, hcount, decide_eq_true_eq];
               omega)]
  simp only
  rw [static_for_impl.flat_for.flat_loop, h5, static_for_impl.flat_for.flat_next,
    if_pos (by unfold sz_add; omega)]

/-- The run of the range form on `start ≤ stop`, for a chunk width of at least 2 or
at least the length. -/
theorem static_for_impl.loop_closed_range (start stop W depth : Nat) (hs : start ≤ stop)
    (he : stop < 18446744073709551616) (hlen : stop - start + 1 < 18446744073709551616)
    (hW : 2 ≤ W ∨ stop - start + 1 ≤ W) (hd : stop - start + 1 ≤ depth) :
    static_for_impl.loop start stop W depth =
      some (List.range' start (stop - start + 1)) := by
  unfold static_for_impl.loop
  rcases hW with hW | hW
  · exact static_for_impl.next_closed_range W hW _ start stop depth hs he rfl hlen hd
  · exact static_for_impl.next_end_point W start stop _ depth hs he rfl hlen hW (by omega)

/-- The run of the count form, for a chunk width of at least 2 or at least the
count. -/
theorem static_for_count (N W depth : Nat) (hN : N < 18446744073709551616)
    (hW : 2 ≤ W ∨ N ≤ W) (hd : N < depth) :
    static_for N W depth = some (List.range N) := by
  unfold static_for
  rcases Nat.eq_zero_or_pos N with h0 | hpos
  · subst h0
    obtain ⟨d, rfl⟩ : ∃ d, depth = d + 1 := ⟨depth - 1, by omega⟩
    have h1 : sz_sub 0 1 = 18446744073709551615 := by decide
    have h2 : static_for_impl.point.is_end_point_ W ⟨0, 18446744073709551615⟩ = true := by
      have hc : static_for_impl.point.count_ ⟨0, 18446744073709551615⟩ = 0 := by decide
      simp [static_for_impl.point.is_end_point_, hc]
    have h5 : (18446744073709551617 : Nat) = 18446744073709551616 + 1 := rfl
    rw [h1, static_for_impl.loop, static_for_impl.next, h2]
    simp only [if_true]
    rw [static_for_impl.flat_for.flat_loop, h5, static_for_impl.flat_for.flat_next,
      if_pos (by decide)]
    rfl
  · rw [sz_sub_eq N 1 (by omega) hN,
      static_for_impl.loop_closed_range 0 (N - 1) W depth (by omega) (by omega) (by omega)
        (by omega) (by omega),
      List.range_eq_range']
    congr 2
    omega

/-- C2, at the failing input `static_for<2, F, 1>`: with chunk width `W = 1` and
count `N = 2` the root point `[0, 1]` is not an end point and is its own only child,
so `next` calls itself on the same point without end.  No nesting depth yields a run
and `F` is invoked on no index, where the claim has `F` invoked on 0 and then on 1;
the points never get "no bigger than sequence_width" as static_for.h 140-141 says
they will. -/
theorem static_for_width_one_no_run :
    ¬ ∃ depth out, static_for 2 1 depth = some out := by
  rintro ⟨depth, out, h⟩
  have h1 : static_for 2 1 depth = static_for_impl.next 1 depth ⟨0, 1⟩ := rfl
  rw [h1, static_for_impl.next_width_one_stuck] at h
  cases h

/-- Away from chunk width 1 the count form does what is asked of it: for every
`N ≥ 0` and every chunk width `W` with `W ≥ 2` or `W ≥ N`, `static_for<N, F, W>`
invokes `F` exactly once for each index `0..N-1`, in strictly ascending order, and
the sequence of invocations is the same for every such `W`, in particular for `W = N`
and `W = N + 100`. -/
theorem static_for_count_ascending (N W depth : Nat) (hN : N < 18446744073709551616)
    (hW : 2 ≤ W ∨ N ≤ W) (hd : N < depth) :
    static_for N W depth = some (List.range N) ∧
    static_for N N depth = some (List.range N) ∧
    static_for N (N + 100) depth = some (List.range N) ∧
    (∀ W2, 2 ≤ W2 ∨ N ≤ W2 → static_for N W2 depth = static_for N W depth) := by
  refine ⟨static_for_count N W depth hN hW hd,
    static_for_count N N depth hN (Or.inr (Nat.le_refl _)) hd,
    static_for_count N (N + 100) depth hN (Or.inr (by omega)) hd, ?_⟩
  intro W2 hW2
  rw [static_for_count N W2 depth hN hW2 hd, static_for_count N W depth hN hW hd]

/-- The count form at `N = 20` with chunk width 3 and nesting depth 21. -/
theorem static_for_count_ascending_witness :
    20 < 18446744073709551616 ∧ (2 ≤ 3 ∨ 20 ≤ 3) ∧ 20 < 21 ∧
    static_for 20 3 21 = some (List.range 20) :=
  ⟨by decide, by decide, by decide,
    (static_for_count_ascending 20 3 21 (by decide) (by decide) (by decide)).1⟩

/-- C5, counterexample: the range form includes its second argument.
`static_for<2, 4, F, 70>` invokes `F` on 2, 3 and 4.  Moreover with chunk width 1 the
range `0, 1` yields no run at any depth, and over the range `0, 2^64 - 1` the length
wraps to zero and nothing is invoked. -/
theorem static_for_range_invokes_end :
    static_for_range 2 4 70 1 = some [2, 3, 4] ∧
    (¬ ∃ depth out, static_for_range 0 1 1 depth = some out) ∧
    static_for_range 0 18446744073709551615 70 1 = some [] := by
  refine ⟨by decide, ?_, by decide⟩
  rintro ⟨depth, out, h⟩
  have h1 : static_for_range 0 1 1 depth = static_for_impl.next 1 depth ⟨0, 1⟩ := rfl
  rw [h1, static_for_impl.next_width_one_stuck] at h
  cases h

/-- C5, amended: for every `start ≤ end` whose length `end - start + 1` is below
`2^64`, and every chunk width `W` with `W ≥ 2` or `W` at least that length, the range
form `static_for<start, end, F, W>` treats its arguments as the closed range
`[start, end]`: it invokes `F` exactly once for each index `i` with
`start ≤ i ≤ end`, in ascending order, and so does invoke `F` on `end`. -/
theorem static_for_range_closed (start stop W depth : Nat) (hs : start ≤ stop)
    (he : stop < 18446744073709551616) (hlen : stop - start + 1 < 18446744073709551616)
    (hW : 2 ≤ W ∨ stop - start + 1 ≤ W) (hd : stop - start + 1 ≤ depth) :
    static_for_range start stop W depth = some (List.range' start (stop - start + 1)) ∧
    (∀ i, i ∈ List.range' start (stop - start + 1) ↔ start ≤ i ∧ i ≤ stop) := by
  refine ⟨static_for_impl.loop_closed_range start stop W depth hs he hlen hW hd, ?_⟩
  intro i
  rw [List.mem_range'_1]
  omega

/-- C5, amended, at the range `5, 30` with chunk width 4 and nesting depth 26. -/
theorem static_for_range_closed_witness :
    5 ≤ 30 ∧ static_for_range 5 30 4 26 = some (List.range' 5 (30 - 5 + 1)) :=
  ⟨by decide,
    (static_for_range_closed 5 30 4 26 (by decide) (by decide) (by decide) (by decide)
      (by decide)).1⟩

/-- C6, counterexample: an inverted range is not rejected.  `static_for<1, 0, F, 70>`
yields a run that is a silent no-op, and `static_for<2^64 - 1, 0, F, 70>` yields a
run that invokes `F` on `2^64 - 1` and on `0`. -/
theorem static_for_range_inverted_runs :
    static_for_range 1 0 70 1 = some [] ∧
    static_for_range 18446744073709551615 0 70 1 = some [18446744073709551615, 0] := by
  decide

/-- C6, amended: the range form performs no range check.  For every inverted pair
`start = end + 1` and every chunk width `W`, `static_for<start, end, F, W>` yields a
run, and that run is a silent no-op: `F` is never invoked. -/
theorem static_for_range_inverted_noop (start stop W depth : Nat) (h : start = stop + 1)
    (hM : start < 18446744073709551616) (hd : 0 < depth) :
    static_for_range start stop W depth = some [] := by
  obtain ⟨d, rfl⟩ : ∃ d, depth = d + 1 := ⟨depth - 1, by omega⟩
  subst h
  exact static_for_impl.next_empty W stop d hM

/-- C6, amended, at the inverted pair `8, 7` with chunk width 3. -/
theorem static_for_range_inverted_noop_witness :
    8 = 7 + 1 ∧ static_for_range 8 7 3 1 = some [] :=
  ⟨by decide, static_for_range_inverted_noop 8 7 3 1 (by decide) (by decide) (by decide)⟩

/-! ## The empty list, the one-Term list, the derived flags, `transform` -/

namespace CFL

/-- C11, counterexample: the empty Term List `Forms<>` supports none of the
operations: `integrate`, the three `set_integration_flags*`, `evaluate` and
`get_form_kinds` are not declared for it, so there is neither a no-op run nor an
all-false presence set. -/
theorem empty_list_declares_no_operation :
    Forms.integrate [] [] = none ∧
    Forms.set_integration_flags [] [] = none ∧
    Forms.set_integration_flags_face [] [] = none ∧
    Forms.set_integration_flags_boundary [] [] = none ∧
    Forms.evaluate Forms.oracle_example [] [] 0 = none ∧
    Forms.get_form_kinds [] ⟨false, false, false⟩ = none := by
  decide

/-- C11, amended: the empty Term List `Forms<>` has `number = 0` and declares none of
`evaluate`, `integrate`, `set_integration_flags*`, `get_form_kinds`.  It is the base
case only as the tail of a one-Term list, which the operations never enter: on the
list of the single Term `T`, `evaluate`, `integrate` and `set_integration_flags*`
make the calls owed for `T` and no other, and `get_form_kinds(a)` returns `a` with
the entry of `T`'s classification set. -/
theorem empty_tail_is_never_entered (ev : ValueOracle) (T : Form) (phi : FEEvaluation)
    (q : Nat) (a : UseObjects) :
    Forms.number [] = 0 ∧
    Forms.evaluate ev [] phi q = none ∧ Forms.integrate [] phi = none ∧
    Forms.set_integration_flags [] phi = none ∧
    Forms.set_integration_flags_face [] phi = none ∧
    Forms.set_integration_flags_boundary [] phi = none ∧
    Forms.get_form_kinds [] a = none ∧
    Forms.evaluate ev [T] phi q =
      some (if T.form_kind = FormKind.cell then
        phi ++ [Call.value T.expr q, Call.submit T.test q (ev T.expr phi q)] else phi) ∧
    Forms.integrate [T] phi =
      some (phi ++ [Call.integrate T.fe_number T.integrate_value T.integrate_gradient]) ∧
    Forms.set_integration_flags [T] phi =
      some (if T.form_kind = FormKind.cell then
        phi ++ [Call.set_integration_flags T.fe_number T.integrate_value
          T.integrate_gradient] else phi) ∧
    Forms.set_integration_flags_face [T] phi =
      some (if T.form_kind = FormKind.face then
        phi ++ [Call.set_integration_flags_face_and_boundary T.fe_number T.integrate_value
          T.integrate_value_exterior T.integrate_gradient T.integrate_gradient_exterior]
        else phi) ∧
    Forms.set_integration_flags_boundary [T] phi =
      some (if T.form_kind = FormKind.boundary then
        phi ++ [Call.set_integration_flags_face_and_boundary T.fe_number T.integrate_value
          false T.integrate_gradient false]
        else phi) ∧
    Forms.get_form_kinds [T] a =
      some ⟨a.at0 || decide (T.form_kind = FormKind.cell),
        a.at1 || decide (T.form_kind = FormKind.face),
        a.at2 || decide (T.form_kind = FormKind.boundary)⟩ := by
  refine ⟨rfl, rfl, rfl, rfl, rfl, rfl, rfl, ?_, ?_, ?_, ?_, ?_, ?_⟩
  · by_cases hk : T.form_kind = FormKind.cell <;>
      simp [Forms.evaluate, Forms.form_kind, hk, Form.value, Form.submit, Expr.value,
        Test.submit]
  · simp [Forms.integrate, Forms.fe_number, Forms.integrate_value, Forms.integrate_gradient]
  · by_cases hk : T.form_kind = FormKind.cell <;>
      simp [Forms.set_integration_flags, Forms.form_kind, hk, Forms.fe_number,
        Forms.integrate_value, Forms.integrate_gradient]
  · by_cases hk : T.form_kind = FormKind.face <;>
      simp [Forms.set_integration_flags_face, Forms.form_kind, hk, Forms.fe_number,
        Forms.integrate_value, Forms.integrate_gradient, Forms.integrate_value_exterior,
        Forms.integrate_gradient_exterior]
  · by_cases hk : T.form_kind = FormKind.boundary <;>
      simp [Forms.set_integration_flags_boundary, Forms.form_kind, hk, Forms.fe_number,
        Forms.integrate_value, Forms.integrate_gradient, Forms.integrate_value_exterior,
        Forms.integrate_gradient_exterior]
  · cases hk : T.form_kind <;> simp [Forms.get_form_kinds, Forms.form_kind, hk]

end CFL

namespace CFL

/-- The constructor of `Forms` builds the list of the transformed terms exactly when
no two of them conflict, and builds nothing otherwise. -/
theorem Forms.from_base_spec (tt : Base.Test → Test) (te : Base.Expr → Expr)
    (f : Base.Forms) :
    (List.Pairwise (fun a b => ¬ Forms.Conflict a b) (f.map (Form.from_base tt te)) →
      Forms.from_base tt te f = some (f.map (Form.from_base tt te))) ∧
    (∀ L, Forms.from_base tt te f = some L →
      L = f.map (Form.from_base tt te) ∧
      List.Pairwise (fun a b => ¬ Forms.Conflict a b) L) := by
  induction f with
  | nil =>
    refine ⟨fun _ => rfl, ?_⟩
    intro L h
    simp only [Forms.from_base, Option.some.injEq] at h
    subst h
    exact ⟨rfl, List.Pairwise.nil⟩
  | cons a rest ih =>
    obtain ⟨ih1, ih2⟩ := ih
    refine ⟨?_, ?_⟩
    · intro hp
      have hrest := ih1 (List.pairwise_cons.1 hp).2
      have hcheck := (Forms.static_assert_check_forms_iff
        (Form.from_base tt te a :: rest.map (Form.from_base tt te))
        (List.cons_ne_nil _ _)).2 hp
      rw [Forms.from_base, hrest]
      simp only
      rw [if_pos hcheck]
      rfl
    · intro L h
      rw [Forms.from_base] at h
      cases hrec : Forms.from_base tt te rest with
      | none => rw [hrec] at h; simp at h
      | some Types =>
        rw [hrec] at h
        simp only at h
        by_cases hc : Forms.static_assert_check_forms (Form.from_base tt te a :: Types) =
            some true
        · rw [if_pos hc] at h
          simp only [Option.some.injEq] at h
          subst h
          obtain ⟨hT, _⟩ := ih2 Types hrec
          refine ⟨by rw [hT]; rfl, ?_⟩
          exact (Forms.static_assert_check_forms_iff _ (List.cons_ne_nil _ _)).1 hc
        · rw [if_neg hc] at h
          simp at h

theorem Forms.get_form_eq_head (l : List Form) : Forms.get_form l = l.head? := by
  cases l <;> rfl

/-- C12, counterexample: for the base list of two cell terms with the same test
object, whose transformed Terms both want the value on slot 0, `transform` yields no
Term List at all, where the claim has one of two Terms: the `static_assert` of the
class `Forms<...>` rejects it, as it rejects the list of the two transformed
Terms. -/
theorem transform_of_conflicting_list :
    transform_forms transform_test_example transform_expr_example
      base_conflicting_example = none ∧
    base_conflicting_example.length = 2 ∧
    Forms.static_assert_check_forms
      (base_conflicting_example.map
        (transform_form transform_test_example transform_expr_example)) = some false := by
  decide

/-- C12, amended: for every base-representation list of `n` terms whose transformed
Terms pass the consistency check of the Term List (the list is empty, or
`check_forms` accepts the transformed Terms), `transform` yields a Term List of
exactly `n` Terms; its `i`-th Term, read back with `get_form` on the `i`-th tail of
the head/tail chain, is the transform of the `i`-th base term and carries the
classification of the `i`-th base term; the order of the elements is unchanged.  For
every other base list `transform` yields no Term List. -/
theorem transform_preserves_order_and_kind (tt : Base.Test → Test) (te : Base.Expr → Expr)
    (f : Base.Forms) :
    (transform_forms tt te f = some (f.map (transform_form tt te)) ↔
      (f = [] ∨
        Forms.static_assert_check_forms (f.map (transform_form tt te)) = some true)) ∧
    (∀ L, transform_forms tt te f = some L →
      L.length = f.length ∧ L = f.map (transform_form tt te) ∧
      ∀ (i : Nat) (h : i < f.length),
        Forms.get_form (L.drop i) = some (transform_form tt te (f.get ⟨i, h⟩)) ∧
        (transform_form tt te (f.get ⟨i, h⟩)).form_kind = (f.get ⟨i, h⟩).form_kind) ∧
    (¬ (f = [] ∨
        Forms.static_assert_check_forms (f.map (transform_form tt te)) = some true) →
      transform_forms tt te f = none) := by
  obtain ⟨hs1, hs2⟩ := Forms.from_base_spec tt te f
  have hmapeq : f.map (transform_form tt te) = f.map (Form.from_base tt te) := rfl
  have hiff : (f = [] ∨
      Forms.static_assert_check_forms (f.map (transform_form tt te)) = some true) ↔
      List.Pairwise (fun a b => ¬ Forms.Conflict a b) (f.map (Form.from_base tt te)) := by
    cases f with
    | nil => exact ⟨fun _ => List.Pairwise.nil, fun _ => Or.inl rfl⟩
    | cons a rest =>
      rw [hmapeq]
      constructor
      · rintro (h | h)
        · cases h
        · exact (Forms.static_assert_check_forms_iff _ (by simp)).1 h
      · intro h
        exact Or.inr ((Forms.static_assert_check_forms_iff _ (by simp)).2 h)
  refine ⟨?_, ?_, ?_⟩
  · rw [hiff]
    constructor
    · intro h
      have := (hs2 _ h).2
      rw [hmapeq] at this
      exact this
    · intro h
      exact hs1 h
  · intro L hL
    obtain ⟨hLeq, _⟩ := hs2 L hL
    have hLmap : L = f.map (transform_form tt te) := hLeq
    refine ⟨by rw [hLmap, List.length_map], hLmap, ?_⟩
    intro i h
    refine ⟨?_, rfl⟩
    rw [Forms.get_form_eq_head, List.head?_drop, hLmap, List.getElem?_map,
      List.getElem?_eq_getElem h]
    rfl
  · intro hn
    cases hres : transform_forms tt te f with
    | none => rfl
    | some L =>
      exfalso
      apply hn
      rw [hiff]
      obtain ⟨hLeq, hp⟩ := hs2 L hres
      rw [← hLeq]
      exact hp

/-- C12, amended, at the base list cell, boundary, face, whose transformed Terms do
not conflict: three Terms come back, and the Term read at position 1 is the transform
of the boundary term. -/
theorem transform_preserves_order_and_kind_witness :
    transform_forms transform_test_example transform_expr_example base_example =
      some [⟨⟨0, ⟨true, false, false, false⟩⟩, ⟨100⟩, FormKind.cell⟩,
        ⟨⟨1, ⟨true, false, false, false⟩⟩, ⟨101⟩, FormKind.boundary⟩,
        ⟨⟨2, ⟨true, false, false, false⟩⟩, ⟨102⟩, FormKind.face⟩] ∧
    ([⟨⟨0, ⟨true, false, false, false⟩⟩, ⟨100⟩, FormKind.cell⟩,
        ⟨⟨1, ⟨true, false, false, false⟩⟩, ⟨101⟩, FormKind.boundary⟩,
        ⟨⟨2, ⟨true, false, false, false⟩⟩, ⟨102⟩, FormKind.face⟩] : List Form).length =
      base_example.length ∧
    Forms.get_form
        (([⟨⟨0, ⟨true, false, false, false⟩⟩, ⟨100⟩, FormKind.cell⟩,
          ⟨⟨1, ⟨true, false, false, false⟩⟩, ⟨101⟩, FormKind.boundary⟩,
          ⟨⟨2, ⟨true, false, false, false⟩⟩, ⟨102⟩, FormKind.face⟩] : List Form).drop 1) =
      some ⟨⟨1, ⟨true, false, false, false⟩⟩, ⟨101⟩, FormKind.boundary⟩ :=
  ⟨by decide,
    ((transform_preserves_order_and_kind transform_test_example transform_expr_example
      base_example).2.1 _ (by decide)).1,
    (((transform_preserves_order_and_kind transform_test_example transform_expr_example
      base_example).2.1 _ (by decide)).2.2 1 (by decide)).1⟩

/-- C17: for a Term List of exactly one Term `T`, each list operation produces the
same evaluator call sequence and the same result as the operation of the same name on
the single Term `T`. -/
theorem one_term_list_agrees_with_term (ev : ValueOracle) (T : Form) (phi : FEEvaluation)
    (q : Nat) (a : UseObjects) :
    Forms.evaluate ev [T] phi q = some (T.evaluate ev phi q) ∧
    Forms.evaluate_face ev [T] phi q = some (T.evaluate_face ev phi q) ∧
    Forms.evaluate_boundary ev [T] phi q = some (T.evaluate_boundary ev phi q) ∧
    Forms.set_integration_flags [T] phi = some (T.set_integration_flags phi) ∧
    Forms.set_integration_flags_face [T] phi = some (T.set_integration_flags_face phi) ∧
    Forms.set_integration_flags_boundary [T] phi =
      some (T.set_integration_flags_boundary phi) ∧
    Forms.set_evaluation_flags [T] phi = some (T.set_evaluation_flags phi) ∧
    Forms.set_evaluation_flags_face [T] phi = some (T.set_evaluation_flags_face phi) ∧
    Forms.integrate [T] phi = some (T.integrate phi) ∧
    Forms.get_form_kinds [T] a = some (T.get_form_kinds a) := by
  refine ⟨?_, ?_, ?_, ?_, ?_, ?_, ?_, ?_, ?_, ?_⟩
  · by_cases hk : T.form_kind = FormKind.cell <;>
      simp [Forms.evaluate, Form.evaluate, Forms.form_kind, hk, Form.value, Form.submit]
  · by_cases hk : T.form_kind = FormKind.face <;>
      simp [Forms.evaluate_face, Form.evaluate_face, Forms.form_kind, hk, Form.value,
        Form.submit]
  · by_cases hk : T.form_kind = FormKind.boundary <;>
      simp [Forms.evaluate_boundary, Form.evaluate_boundary, Forms.form_kind, hk,
        Form.value, Form.submit]
  · by_cases hk : T.form_kind = FormKind.cell <;>
      simp [Forms.set_integration_flags, Form.set_integration_flags, Forms.form_kind, hk,
        Forms.fe_number, Forms.integrate_value, Forms.integrate_gradient]
  · by_cases hk : T.form_kind = FormKind.face <;>
      simp [Forms.set_integration_flags_face, Form.set_integration_flags_face,
        Forms.form_kind, hk, Forms.fe_number, Forms.integrate_value,
        Forms.integrate_gradient, Forms.integrate_value_exterior,
        Forms.integrate_gradient_exterior]
  · by_cases hk : T.form_kind = FormKind.boundary <;>
      simp [Forms.set_integration_flags_boundary, Form.set_integration_flags_boundary,
        Forms.form_kind, hk, Forms.fe_number, Forms.integrate_value,
        Forms.integrate_gradient, Forms.integrate_value_exterior,
        Forms.integrate_gradient_exterior, Form.integrate_value_exterior,
        Form.integrate_gradient_exterior]
  · by_cases hk : T.form_kind = FormKind.cell <;>
      simp [Forms.set_evaluation_flags, Form.set_evaluation_flags, Forms.form_kind, hk]
  · by_cases hk : T.form_kind = FormKind.face ∨ T.form_kind = FormKind.boundary <;>
      simp [Forms.set_evaluation_flags_face, Form.set_evaluation_flags_face,
        Forms.form_kind, hk]
  · simp [Forms.integrate, Form.integrate, Forms.fe_number, Forms.integrate_value,
      Forms.integrate_gradient]
  · cases hk : T.form_kind <;>
      simp [Forms.get_form_kinds, Form.get_form_kinds, Forms.form_kind, hk]

end CFL

namespace CFL

/-- C20: for a Term whose classification is interior-cell or boundary-face the
derived flags `integrate_value_exterior` and `integrate_gradient_exterior` (of the
Term and of its list node) are false whatever integration flags the test object
declares; for an interface-face Term they equal the test object's exterior flags.
Consequently `set_integration_flags_boundary`, of a Term and of a non-empty Term
List, passes `false` for both exterior-side arguments in every call it makes. -/
theorem exterior_flags_only_for_face (T : Form) (forms : List Form) (h : forms ≠ [])
    (phi : FEEvaluation) :
    (T.form_kind = FormKind.cell ∨ T.form_kind = FormKind.boundary →
      T.integrate_value_exterior = false ∧ T.integrate_gradient_exterior = false ∧
      Forms.integrate_value_exterior T = false ∧
      Forms.integrate_gradient_exterior T = false) ∧
    (T.form_kind = FormKind.face →
      T.integrate_value_exterior = T.test.integration_flags.value_exterior ∧
      T.integrate_gradient_exterior = T.test.integration_flags.gradient_exterior ∧
      Forms.integrate_value_exterior T = T.test.integration_flags.value_exterior ∧
      Forms.integrate_gradient_exterior T = T.test.integration_flags.gradient_exterior) ∧
    T.set_integration_flags_boundary phi =
      (if T.form_kind = FormKind.boundary then
        phi ++ [Call.set_integration_flags_face_and_boundary T.fe_number T.integrate_value
          false T.integrate_gradient false]
      else phi) ∧
    (∃ calls, Forms.set_integration_flags_boundary forms phi = some (phi ++ calls) ∧
      ∀ c ∈ calls, ∃ fe v g,
        c = Call.set_integration_flags_face_and_boundary fe v false g false) := by
  refine ⟨?_, ?_, ?_, ?_⟩
  · intro hk
    rcases hk with hk | hk <;>
      simp [Form.integrate_value_exterior, Form.integrate_gradient_exterior,
        Forms.integrate_value_exterior, Forms.integrate_gradient_exterior, hk]
  · intro hk
    simp [Form.integrate_value_exterior, Form.integrate_gradient_exterior,
      Forms.integrate_value_exterior, Forms.integrate_gradient_exterior, Forms.form_kind, hk]
  · by_cases hk : T.form_kind = FormKind.boundary <;>
      simp [Form.set_integration_flags_boundary, hk, Form.integrate_value_exterior,
        Form.integrate_gradient_exterior]
  · have hlen : forms.length ≠ 0 := fun e => h (List.length_eq_zero.1 e)
    have h3 := Forms.set_integration_flags_boundary_aux forms phi
    rw [if_pos hlen] at h3
    refine ⟨_, h3, ?_⟩
    intro c hc
    obtain ⟨U, _, rfl⟩ := List.mem_map.1 hc
    exact ⟨_, _, _, rfl⟩

/-- C20 at the boundary Term whose test object declares both exterior-side
capabilities: the derived flags are false and the call carries `false` twice. -/
theorem exterior_flags_only_for_face_witness :
    ([Forms.boundary_example] : List Form) ≠ [] ∧
    Forms.boundary_example.test.integration_flags.value_exterior = true ∧
    Forms.boundary_example.integrate_value_exterior = false ∧
    Forms.boundary_example.integrate_gradient_exterior = false ∧
    Forms.boundary_example.set_integration_flags_boundary [] =
      [Call.set_integration_flags_face_and_boundary 0 true false false false] :=
  ⟨by decide, by decide,
    ((exterior_flags_only_for_face Forms.boundary_example [Forms.boundary_example]
      (by decide) []).1 (Or.inr rfl)).1,
    ((exterior_flags_only_for_face Forms.boundary_example [Forms.boundary_example]
      (by decide) []).1 (Or.inr rfl)).2.1,
    (exterior_flags_only_for_face Forms.boundary_example [Forms.boundary_example]
      (by decide) []).2.2.1⟩

end CFL

/-! ## The loop unroller: children, nesting depth, chunk width 1, the flat unrollers -/

theorem ceil_div_le_of_le_mul (c m X : Nat) (hm : 0 < m) (h : c ≤ X * m) :
    ceil_div c m ≤ X := by
  have h1 := ceil_div_mul_lt c m hm
  by_contra hcon
  have h2 : (X + 1) * m ≤ ceil_div c m * m := Nat.mul_le_mul_right m (by omega)
  have h3 : (X + 1) * m = X * m + m := by rw [Nat.add_mul, Nat.one_mul]
  omega

/-- The nominal child length of a point of length `c > W` is at most `X` whenever
`c ≤ X * W` and `W ≤ X`. -/
theorem partition_child_le (c W X : Nat) (hW : 2 ≤ W) (hX : W ≤ X)
    (hcX : c ≤ X * W) :
    ceil_div c (if ceil_div c W > W then W else ceil_div c W) ≤ X := by
  by_cases hbig : ceil_div c W > W
  · rw [if_pos hbig]
    exact ceil_div_le_of_le_mul c W X (by omega) hcX
  · rw [if_neg hbig]
    have hP1 := ceil_div_mul_ge c W (by omega)
    rcases Nat.eq_zero_or_pos (ceil_div c W) with h0 | hpos
    · rw [h0] at hP1 ⊢
      have hc0 : c = 0 := by omega
      subst hc0
      simp [ceil_div]
    · have h1 : ceil_div c (ceil_div c W) ≤ W :=
        ceil_div_le_of_le_mul c (ceil_div c W) W hpos (by rw [Nat.mul_comm]; exact hP1)
      omega

namespace static_for_impl

/-- The children of a point `[s, e]` of length `c > W`, for `W ≥ 2`, with their
number `k' + 1 = min (ceil (c / W)) W` and nominal length `p = ceil (c / (k' + 1))`
named. -/
theorem point.children_at (W s e c k' p : Nat) (hs : s ≤ e)
    (he : e < 18446744073709551616) (hcdef : e - s + 1 = c)
    (hcM : c < 18446744073709551616) (hc : W < c)
    (hk : (if ceil_div c W > W then W else ceil_div c W) = k' + 1) (hkW : k' + 1 ≤ W)
    (hp : ceil_div c (k' + 1) = p) (hp1 : 1 ≤ p) (hlt : p * k' < c) :
    point.sequence_count W ⟨s, e⟩ = some (k' + 1) ∧
      ∀ i, i ≤ k' → point.child_point W ⟨s, e⟩ i =
        some ⟨s + p * i, if i = k' then e else s + p * (i + 1) - 1⟩ := by
  have hcount : point.count_ ⟨s, e⟩ = c := by
    rw [point.count_eq s e hs he (by omega), hcdef]
  have hseq : point.sequence_count W ⟨s, e⟩ = some (k' + 1) := by
    unfold point.sequence_count
    rw [point.points_in_sequence_eq _ W (by omega) (by omega), hcount]
    simp only
    rw [hk]
  have hpis : point.points_in_sequence ⟨s, e⟩ (k' + 1) = some p := by
    rw [point.points_in_sequence_eq _ (k' + 1) (by omega) (by omega), hcount, hp]
  have hend : ∀ i, i ≤ k' → point.child_end W ⟨s, e⟩ i =
      some (if i = k' then e else s + p * (i + 1) - 1) := by
    intro i hi
    unfold point.child_end
    rw [hseq]
    simp only
    rw [sz_sub_eq (k' + 1) 1 (by omega) (by omega), Nat.add_sub_cancel]
    by_cases hik : i = k'
    · rw [if_pos hik, if_pos hik]
    · rw [if_neg hik, if_neg hik, hpis]
      simp only
      have hmul : p * (i + 1) ≤ p * k' := Nat.mul_le_mul_left p (by omega)
      have hpos : 1 ≤ p * (i + 1) := Nat.mul_pos (by omega) (by omega)
      rw [sz_add_eq i 1 (by omega), sz_mul_eq p (i + 1) (by omega),
        sz_add_eq s (p * (i + 1)) (by omega), hcount, if_pos (by omega),
        sz_sub_eq _ 1 (by omega) (by omega)]
  refine ⟨hseq, ?_⟩
  intro i hi
  have hstart : point.child_start W ⟨s, e⟩ i = some (s + p * i) := by
    unfold point.child_start
    by_cases h0 : i = 0
    · rw [if_pos h0, h0]; simp
    · rw [if_neg h0, sz_sub_eq i 1 (by omega) (by omega), hend (i - 1) (by omega),
        if_neg (by omega)]
      simp only
      have hi1 : i - 1 + 1 = i := by omega
      rw [hi1]
      have hmul : p * i ≤ p * k' := Nat.mul_le_mul_left p hi
      have hpos : 1 ≤ p * i := Nat.mul_pos (by omega) (by omega)
      rw [sz_add_eq _ 1 (by omega)]
      congr 1
      omega
  unfold point.child_point
  rw [hstart, hend i hi]

/-- A point that is not an end point runs its children in order: when every child
yields the run over its own range, the point yields the run over `s .. e`. -/
theorem next_of_children (W s e c depth k' p : Nat) (hs : s ≤ e)
    (he : e < 18446744073709551616) (hcdef : e - s + 1 = c)
    (hcM : c < 18446744073709551616) (hc : W < c) (hkW : k' + 1 ≤ W)
    (hlt : p * k' ≤ c)
    (hseq : point.sequence_count W ⟨s, e⟩ = some (k' + 1))
    (hchild : ∀ i, i ≤ k' → point.child_point W ⟨s, e⟩ i =
      some ⟨s + p * i, if i = k' then e else s + p * (i + 1) - 1⟩)
    (hrun : ∀ i, i ≤ k' →
      next W depth ⟨s + p * i, if i = k' then e else s + p * (i + 1) - 1⟩ =
        some (List.range' (s + p * i) (if i = k' then c - p * k' else p))) :
    next W (depth + 1) ⟨s, e⟩ = some (List.range' s c) := by
  have hcount := point.count_eq s e hs he (by omega)
  rw [next,
    if_neg (by simp only [point.is_end_point_, hcount, decide_eq_true_eq]; omega), hseq]
  simp only
  rw [sz_sub_eq (k' + 1) 1 (by omega) (by omega), Nat.add_sub_cancel]
  rw [flat_for.flat_loop_closed _
    (fun i => List.range' (s + p * i) (if i = k' then c - p * k' else p))
    0 k' (k' + 1) (by omega) (by omega) (by omega) (Or.inl (by omega)) ?_]
  · rw [flatten_children s p k' c hlt]
  · intro j _ hj
    rw [hchild j hj]
    simp only
    exact hrun j hj

/-- A run within nesting depth `d + 1`: a point `[s, e]` of length `c ≤ W ^ (d + 1)`
has at most `d` levels of points that are not end points above its end points. -/
theorem next_within_depth (W : Nat) (hW : 2 ≤ W) :
    ∀ (d c s e : Nat), s ≤ e → e < 18446744073709551616 → e - s + 1 = c →
      c < 18446744073709551616 → c ≤ W ^ (d + 1) →
      next W (d + 1) ⟨s, e⟩ = some (List.range' s c) := by
  intro d
  induction d with
  | zero =>
    intro c s e hs he hcdef hcM hcW
    exact next_end_point W s e c 1 hs he hcdef hcM (by simpa using hcW) (by omega)
  | succ d ih =>
    intro c s e hs he hcdef hcM hcW
    by_cases hend : c ≤ W
    · exact next_end_point W s e c (d + 1 + 1) hs he hcdef hcM hend (by omega)
    · obtain ⟨k', p, hk, hk1, hkW, hp, hp1, hlt, hge⟩ := partition_arith c W hW (by omega)
      obtain ⟨hseq, hchild⟩ := point.children_at W s e c k' p hs he hcdef hcM (by omega)
        hk hkW hp hp1 hlt
      have hXW : W ≤ W ^ (d + 1) := by
        calc W = W ^ 1 := (Nat.pow_one W).symm
          _ ≤ W ^ (d + 1) := Nat.pow_le_pow_right (by omega) (by omega)
      have hpX : p ≤ W ^ (d + 1) := by
        rw [← hp, ← hk]
        exact partition_child_le c W (W ^ (d + 1)) hW hXW (by rw [← Nat.pow_succ]; exact hcW)
      have hpk : p * (k' + 1) = p * k' + p := Nat.mul_succ p k'
      refine next_of_children W s e c (d + 1) k' p hs he hcdef hcM (by omega) hkW
        (by omega) hseq hchild ?_
      intro i hi
      by_cases hik : i = k'
      · subst hik
        rw [if_pos rfl, if_pos rfl]
        exact ih (c - p * i) (s + p * i) e (by omega) he (by omega) (by omega) (by omega)
      · rw [if_neg hik, if_neg hik]
        have hmul : p * (i + 1) ≤ p * k' := Nat.mul_le_mul_left p (by omega)
        have hsucc : p * (i + 1) = p * i + p := Nat.mul_succ p i
        exact ih p (s + p * i) (s + p * (i + 1) - 1) (by omega) (by omega) (by omega)
          (by omega) hpX

end static_for_impl

/-- C13: for every chunk width `W ≥ 2` and every range of length `N ≥ 1`, the
nesting depth of the point tree (the number of levels of points that are not end
points above any end point) is at most every `d` with `N ≤ W ^ (d + 1)`, hence at
most the least such `d`: the run of the range form and of the count form exists
within `d + 1` nested levels of `next`, the last of them the level of the end
points. -/
theorem nesting_depth_logarithmic (W N s e d : Nat) (hW : 2 ≤ W) (hN : 1 ≤ N)
    (hs : s ≤ e) (he : e < 18446744073709551616) (hlen : e - s + 1 = N)
    (hNM : N < 18446744073709551616) (hd : N ≤ W ^ (d + 1)) :
    static_for_range s e W (d + 1) = some (List.range' s N) ∧
    static_for N W (d + 1) = some (List.range N) := by
  refine ⟨static_for_impl.next_within_depth W hW d N s e hs he hlen hNM hd, ?_⟩
  unfold static_for static_for_impl.loop
  rw [sz_sub_eq N 1 hN hNM,
    static_for_impl.next_within_depth W hW d N 0 (N - 1) (by omega) (by omega) (by omega)
      hNM hd,
    List.range_eq_range']

/-- C13 at `N = 10000` with `W = 70`: nesting depth 2 is enough, since
`10000 ≤ 70 ^ 3`; one level fewer is not. -/
theorem nesting_depth_logarithmic_witness :
    2 ≤ 70 ∧ 10000 ≤ 70 ^ (2 + 1) ∧
    static_for 10000 70 (2 + 1) = some (List.range 10000) ∧
    static_for 10000 70 2 = none :=
  ⟨by decide, by decide,
    (nesting_depth_logarithmic 70 10000 0 9999 2 (by decide) (by decide) (by decide)
      (by decide) (by decide) (by decide) (by decide)).2,
    by decide⟩

/-- C14: for every chunk width `W ≥ 2` and every point `[s, e]` whose length
`c = e - s + 1` exceeds `W`, the children `child_point<0> .. child_point<k-1>` with
`k = sequence_count() = min (ceil (c / W)) W` form an ordered partition of `[s, e]`:
`k ≤ W`, child 0 starts at `s`, child `i + 1` starts one past the end of child `i`,
the last child ends at `e`, every child but the last has length `ceil (c / k)`, and
the last child has length at least 1 and at most `ceil (c / k)`. -/
theorem children_partition (W s e : Nat) (hW : 2 ≤ W) (hs : s ≤ e)
    (he : e < 18446744073709551616) (hcM : e - s + 1 < 18446744073709551616)
    (hc : W < e - s + 1) :
    ∃ k, static_for_impl.point.sequence_count W ⟨s, e⟩ = some k ∧
      k = min (ceil_div (e - s + 1) W) W ∧ k ≤ W ∧
      ∃ child : Nat → static_for_impl.point,
        (∀ i, i < k → static_for_impl.point.child_point W ⟨s, e⟩ i = some (child i)) ∧
        (child 0).start_ = s ∧
        (∀ i, i + 1 < k → (child (i + 1)).start_ = (child i).end_ + 1) ∧
        (child (k - 1)).end_ = e ∧
        (∀ i, i + 1 < k → (child i).count_ = ceil_div (e - s + 1) k) ∧
        1 ≤ (child (k - 1)).count_ ∧
        (child (k - 1)).count_ ≤ ceil_div (e - s + 1) k := by
  obtain ⟨k', p, hk, hk1, hkW, hp, hp1, hlt, hge⟩ := partition_arith (e - s + 1) W hW hc
  obtain ⟨hseq, hchild⟩ := static_for_impl.point.children_at W s e (e - s + 1) k' p hs he
    rfl hcM hc hk hkW hp hp1 hlt
  have hpk : p * (k' + 1) = p * k' + p := Nat.mul_succ p k'
  refine ⟨k' + 1, hseq, ?_, hkW,
    fun i => ⟨s + p * i, if i = k' then e else s + p * (i + 1) - 1⟩, ?_, ?_, ?_, ?_, ?_, ?_, ?_⟩
  · rw [← hk, Nat.min_def]
    split_ifs <;> omega
  · intro i hi
    exact hchild i (by omega)
  · simp
  · intro i hi
    have hpos : 1 ≤ p * (i + 1) := Nat.mul_pos (by omega) (by omega)
    simp only
    rw [if_neg (by omega)]
    omega
  · simp
  · intro i hi
    have hmul : p * (i + 1) ≤ p * k' := Nat.mul_le_mul_left p (by omega)
    have hsucc : p * (i + 1) = p * i + p := Nat.mul_succ p i
    simp only
    rw [if_neg (by omega), static_for_impl.point.count_eq _ _ (by omega) (by omega)
      (by omega), hp]
    omega
  · simp only [Nat.add_sub_cancel, if_true]
    rw [static_for_impl.point.count_eq _ _ (by omega) he (by omega)]
    omega
  · simp only [Nat.add_sub_cancel, if_true]
    rw [static_for_impl.point.count_eq _ _ (by omega) he (by omega), hp]
    omega

/-- C14 at the point `[0, 9999]` with chunk width 70: 70 children. -/
theorem children_partition_witness :
    (2 ≤ 70 ∧ 70 < 9999 - 0 + 1) ∧
    ∃ k, static_for_impl.point.sequence_count 70 ⟨0, 9999⟩ = some k ∧
      k = min (ceil_div (9999 - 0 + 1) 70) 70 ∧ k ≤ 70 ∧
      ∃ child : Nat → static_for_impl.point,
        (∀ i, i < k → static_for_impl.point.child_point 70 ⟨0, 9999⟩ i = some (child i)) ∧
        (child 0).start_ = 0 ∧
        (∀ i, i + 1 < k → (child (i + 1)).start_ = (child i).end_ + 1) ∧
        (child (k - 1)).end_ = 9999 ∧
        (∀ i, i + 1 < k → (child i).count_ = ceil_div (9999 - 0 + 1) k) ∧
        1 ≤ (child (k - 1)).count_ ∧
        (child (k - 1)).count_ ≤ ceil_div (9999 - 0 + 1) k :=
  ⟨by decide,
    children_partition 70 0 9999 (by decide) (by decide) (by decide) (by decide)
      (by decide)⟩

/-- C18: for every chunk width `W ≥ 2` and every point of length `c > W`, each child
point is non-empty and strictly shorter than its parent, `1 ≤ child length < c`; so
the recursion over child points is well-founded, and `static_for` terminates for
every `N ≥ 0`: every nesting depth above `N` yields the run. -/
theorem children_shorter_and_terminating (W s e N : Nat) (hW : 2 ≤ W) (hs : s ≤ e)
    (he : e < 18446744073709551616) (hcM : e - s + 1 < 18446744073709551616)
    (hc : W < e - s + 1) (hN : N < 18446744073709551616) :
    (∃ k, static_for_impl.point.sequence_count W ⟨s, e⟩ = some k ∧
      ∀ i, i < k → ∃ child, static_for_impl.point.child_point W ⟨s, e⟩ i = some child ∧
        1 ≤ child.count_ ∧ child.count_ < e - s + 1) ∧
    (∀ depth, N < depth → static_for N W depth = some (List.range N)) := by
  refine ⟨?_, fun depth hd => static_for_count N W depth hN (Or.inl hW) hd⟩
  obtain ⟨k', p, hk1, hkW, hp1, hlt, hge, hseq, hchild⟩ :=
    static_for_impl.point.children W s e (e - s + 1) hW hs he rfl hcM hc
  have hpk : p * (k' + 1) = p * k' + p := Nat.mul_succ p k'
  have hp1k : p * 1 ≤ p * k' := Nat.mul_le_mul_left p hk1
  refine ⟨k' + 1, hseq, ?_⟩
  intro i hi
  refine ⟨_, hchild i (by omega), ?_⟩
  by_cases hik : i = k'
  · subst hik
    rw [if_pos rfl, static_for_impl.point.count_eq _ _ (by omega) he (by omega)]
    omega
  · have hmul : p * (i + 1) ≤ p * k' := Nat.mul_le_mul_left p (by omega)
    have hsucc : p * (i + 1) = p * i + p := Nat.mul_succ p i
    rw [if_neg hik, static_for_impl.point.count_eq _ _ (by omega) (by omega) (by omega)]
    omega

/-- C18 at the point `[0, 142]` with chunk width 70 and at the count `N = 143`. -/
theorem children_shorter_and_terminating_witness :
    (2 ≤ 70 ∧ 70 < 142 - 0 + 1) ∧
    (∃ k, static_for_impl.point.sequence_count 70 ⟨0, 142⟩ = some k ∧
      ∀ i, i < k → ∃ child, static_for_impl.point.child_point 70 ⟨0, 142⟩ i = some child ∧
        1 ≤ child.count_ ∧ child.count_ < 142 - 0 + 1) ∧
    (∀ depth, 143 < depth → static_for 143 70 depth = some (List.range 143)) :=
  ⟨by decide,
    children_shorter_and_terminating 70 0 142 143 (by decide) (by decide) (by decide)
      (by decide) (by decide) (by decide)⟩


/-- With a chunk width `W` equal to 1, a point of length at least 2 is its own only
child.  The width is kept a variable so that no division by the literal is
evaluated. -/
theorem static_for_impl.point.width_one_child (W i : Nat) (pt : static_for_impl.point)
    (hW : W = 1) (hi : i = 0) (h : 2 ≤ pt.count_) :
    static_for_impl.point.is_end_point_ W pt = false ∧
    static_for_impl.point.sequence_count W pt = some 1 ∧
    static_for_impl.point.child_point W pt i = some pt := by
  have hlt : pt.count_ < 18446744073709551616 := by
    unfold static_for_impl.point.count_ sz_add
    omega
  have hceil : ceil_div pt.count_ W = pt.count_ := by
    rw [hW]
    simp [ceil_div, Nat.mod_one]
  have hpis : pt.points_in_sequence W = some pt.count_ := by
    rw [static_for_impl.point.points_in_sequence_eq pt W (by omega) hlt, hceil]
  have hseq : static_for_impl.point.sequence_count W pt = some 1 := by
    unfold static_for_impl.point.sequence_count
    rw [hpis]
    simp only
    rw [if_pos (by omega), hW]
  have h0 : sz_sub 1 1 = 0 := by decide
  have hend : static_for_impl.point.child_end W pt i = some pt.end_ := by
    unfold static_for_impl.point.child_end
    rw [hseq]
    simp only
    rw [h0, if_pos hi]
  have hstart : static_for_impl.point.child_start W pt i = some pt.start_ := by
    unfold static_for_impl.point.child_start
    rw [if_pos hi]
  refine ⟨?_, hseq, ?_⟩
  · simp only [static_for_impl.point.is_end_point_, decide_eq_false_iff_not]
    omega
  · unfold static_for_impl.point.child_point
    rw [hstart, hend]

theorem static_for_impl.next_width_one_none (W : Nat) (pt : static_for_impl.point)
    (hW : W = 1) (h : 2 ≤ pt.count_) : ∀ depth, static_for_impl.next W depth pt = none := by
  obtain ⟨h1, h2, h3⟩ := static_for_impl.point.width_one_child W 0 pt hW rfl h
  intro depth
  induction depth with
  | zero => rfl
  | succ d ih =>
    have h4 : sz_sub 1 1 = 0 := by decide
    have h5 : (18446744073709551617 : Nat) = 18446744073709551616 + 1 := rfl
    have h6 : ¬ (0 = sz_add 0 1) := by decide
    rw [static_for_impl.next, h1, if_neg (by decide), h2]
    simp only
    rw [h4, static_for_impl.flat_for.flat_loop, h5, static_for_impl.flat_for.flat_next,
      if_neg h6]
    rw [h3]
    simp only
    rw [ih]

/-- C19: with chunk width `W = 1`, every point `[s, e]` of length at least 2 is not
an end point, has `sequence_count() = 1`, and its only child `child_point<0>` is the
point `[s, e]` itself; the chunked recursion makes no progress on such a range, and
no nesting depth yields a run. -/
theorem width_one_makes_no_progress (pt : static_for_impl.point) (h : 2 ≤ pt.count_) :
    static_for_impl.point.is_end_point_ 1 pt = false ∧
    static_for_impl.point.sequence_count 1 pt = some 1 ∧
    static_for_impl.point.child_point 1 pt 0 = some pt ∧
    ∀ depth, static_for_impl.next 1 depth pt = none :=
  ⟨(static_for_impl.point.width_one_child 1 0 pt rfl rfl h).1,
    (static_for_impl.point.width_one_child 1 0 pt rfl rfl h).2.1,
    (static_for_impl.point.width_one_child 1 0 pt rfl rfl h).2.2,
    static_for_impl.next_width_one_none 1 pt rfl h⟩

/-- C19 at the point `[3, 9]`. -/
theorem width_one_makes_no_progress_witness :
    2 ≤ static_for_impl.point.count_ ⟨3, 9⟩ ∧
    static_for_impl.point.child_point 1 ⟨3, 9⟩ 0 = some ⟨3, 9⟩ ∧
    ∀ depth, static_for_impl.next 1 depth ⟨3, 9⟩ = none :=
  ⟨by decide, (width_one_makes_no_progress ⟨3, 9⟩ (by decide)).2.2.1,
    (width_one_makes_no_progress ⟨3, 9⟩ (by decide)).2.2.2⟩

theorem static_for_old_run :
    ∀ (n : Nat) (First : Int) (depth : Nat), First + n ≤ 2147483647 → n < depth →
      static_for_old depth First (First + n) =
        some ((List.range n).map (fun i : Nat => First + (i : Int))) := by
  intro n
  induction n with
  | zero =>
    intro First depth _ hd
    obtain ⟨d, rfl⟩ : ∃ d, depth = d + 1 := ⟨depth - 1, by omega⟩
    simp [static_for_old]
  | succ n ih =>
    intro First depth hmax hd
    obtain ⟨d, rfl⟩ : ∃ d, depth = d + 1 := ⟨depth - 1, by omega⟩
    have hne : ¬ (First = First + ((n + 1 : Nat) : Int)) := by push_cast; omega
    have hover : ¬ (First + 1 > 2147483647) := by push_cast at hmax; omega
    have hlast : First + ((n + 1 : Nat) : Int) = (First + 1) + (n : Int) := by
      push_cast; omega
    have hrec := ih (First + 1) d (by push_cast at hmax ⊢; omega) (by omega)
    rw [static_for_old, if_neg hne, if_neg hover, hlast, hrec]
    simp only
    rw [if_pos (by omega), List.range_succ_eq_map, List.map_cons, List.map_map]
    simp only [Nat.cast_zero, add_zero, Option.some.injEq, List.cons.injEq, true_and]
    apply List.map_congr_left
    intro i _
    simp only [Function.comp_apply, Nat.succ_eq_add_one, Nat.cast_add, Nat.cast_one]
    omega

theorem static_for_new_run :
    ∀ (n : Nat) (First : Int) (depth : Nat), First + n ≤ 2147483647 → n < depth →
      static_for_new depth First (First + n) =
        some ((List.range n).map (fun i : Nat => First + (i : Int))) := by
  intro n
  induction n with
  | zero =>
    intro First depth _ hd
    obtain ⟨d, rfl⟩ : ∃ d, depth = d + 1 := ⟨depth - 1, by omega⟩
    simp [static_for_new]
  | succ n ih =>
    intro First depth hmax hd
    obtain ⟨d, rfl⟩ : ∃ d, depth = d + 1 := ⟨depth - 1, by omega⟩
    have hne : ¬ (First = First + ((n + 1 : Nat) : Int)) := by push_cast; omega
    have hover : ¬ (First + 1 > 2147483647) := by push_cast at hmax; omega
    have hlast : First + ((n + 1 : Nat) : Int) = (First + 1) + (n : Int) := by
      push_cast; omega
    have hrec := ih (First + 1) d (by push_cast at hmax ⊢; omega) (by omega)
    rw [static_for_new, if_neg hne, if_neg hover, hlast, hrec]
    simp only
    rw [if_pos (by omega), List.range_succ_eq_map, List.map_cons, List.map_map]
    simp only [Nat.cast_zero, add_zero, Option.some.injEq, List.cons.injEq, true_and]
    apply List.map_congr_left
    intro i _
    simp only [Function.comp_apply, Nat.succ_eq_add_one, Nat.cast_add, Nat.cast_one]
    omega

/-- The count form on a count that fits one chunk: a single flat loop. -/
theorem static_for_flat (N W depth : Nat) (hN : N < 18446744073709551616) (hNW : N ≤ W)
    (hd : 0 < depth) : static_for N W depth = some (List.range N) := by
  rcases Nat.eq_zero_or_pos N with h0 | hpos
  · subst h0
    obtain ⟨d, rfl⟩ : ∃ d, depth = d + 1 := ⟨depth - 1, by omega⟩
    exact static_for_count 0 W (d + 1) (by omega) (Or.inr (Nat.zero_le _)) (by omega)
  · unfold static_for static_for_impl.loop
    rw [sz_sub_eq N 1 (by omega) hN,
      static_for_impl.next_end_point W 0 (N - 1) N depth (by omega) (by omega) (by omega)
        hN hNW hd,
      List.range_eq_range']

/-- C15: for every `N ≥ 0` and chunk width `W ≥ 1` with `N ≤ W`, the chunked count
form `static_for<N, F, W>` produces exactly the sequence of invocations of the flat
unroller `static_for_old<0, N>`, and of `static_for_new<0, N, F>`: `F` on
`0, 1, .., N-1`, and nothing for `N = 0`.  `N` is an `int` template argument of the
flat unrollers, so `N ≤ 2^31 - 1`. -/
theorem chunked_matches_flat (N W depth fuel : Nat) (hN : N ≤ 2147483647) (_hW : 1 ≤ W)
    (hNW : N ≤ W) (hd : 0 < depth) (hf : N < fuel) :
    static_for N W depth = some (List.range N) ∧
    static_for_old fuel 0 N = some ((List.range N).map (fun i : Nat => (i : Int))) ∧
    static_for_new fuel 0 N = some ((List.range N).map (fun i : Nat => (i : Int))) ∧
    (static_for N W depth).map (List.map (fun i : Nat => (i : Int))) =
      static_for_old fuel 0 N ∧
    static_for 0 W depth = some [] ∧ static_for_old fuel 0 0 = some [] := by
  have h1 := static_for_flat N W depth (by omega) hNW hd
  have h2 : static_for_old fuel 0 N =
      some ((List.range N).map (fun i : Nat => (i : Int))) := by
    have h := static_for_old_run N 0 fuel (by omega) hf
    simpa using h
  have h3 : static_for_new fuel 0 N =
      some ((List.range N).map (fun i : Nat => (i : Int))) := by
    have h := static_for_new_run N 0 fuel (by omega) hf
    simpa using h
  have h4 : static_for_old fuel 0 0 = some [] := by
    have h := static_for_old_run 0 0 fuel (by omega) (by omega)
    simpa using h
  refine ⟨h1, h2, h3, ?_, static_for_flat 0 W depth (by omega) (Nat.zero_le _) hd, h4⟩
  rw [h1, h2]
  rfl

/-- C15 at `N = 5` with chunk width 70. -/
theorem chunked_matches_flat_witness :
    (5 ≤ 2147483647 ∧ 1 ≤ 70 ∧ 5 ≤ 70) ∧
    static_for 5 70 1 = some [0, 1, 2, 3, 4] ∧
    static_for_old 6 0 5 = some [0, 1, 2, 3, 4] ∧
    static_for_new 6 0 5 = some [0, 1, 2, 3, 4] :=
  ⟨by decide,
    (chunked_matches_flat 5 70 1 6 (by decide) (by decide) (by decide) (by decide)
      (by decide)).1,
    (chunked_matches_flat 5 70 1 6 (by decide) (by decide) (by decide) (by decide)
      (by decide)).2.1,
    (chunked_matches_flat 5 70 1 6 (by decide) (by decide) (by decide) (by decide)
      (by decide)).2.2.1⟩

/-- C16: with `size_t` arithmetic modulo `2^64`, the count form with `count = 0` is a
no-op for every chunk width `W`: it instantiates `static_for_impl<0, 2^64 - 1>`,
whose root point has `count_ = 0` and is therefore an end point, and the flat loop's
terminating index `(flat_end + 1) mod 2^64` is the start index 0, so `F` is never
invoked. -/
theorem static_for_zero_count_noop (W depth : Nat) :
    sz_sub 0 1 = 18446744073709551615 ∧
    static_for 0 W (depth + 1) =
      static_for_impl.loop 0 18446744073709551615 W (depth + 1) ∧
    static_for_impl.point.count_ ⟨0, 18446744073709551615⟩ = 0 ∧
    static_for_impl.point.is_end_point_ W ⟨0, 18446744073709551615⟩ = true ∧
    sz_add 18446744073709551615 1 = 0 ∧
    static_for 0 W (depth + 1) = some [] := by
  have h1 : sz_sub 0 1 = 18446744073709551615 := by decide
  have hc : static_for_impl.point.count_ ⟨0, 18446744073709551615⟩ = 0 := by decide
  refine ⟨h1, ?_, hc, ?_, by decide, ?_⟩
  · unfold static_for
    rw [h1]
  · simp only [static_for_impl.point.is_end_point_, hc, decide_eq_true_eq]
    omega
  · exact static_for_count 0 W (depth + 1) (by omega) (Or.inr (Nat.zero_le _)) (by omega)

/-! ## The accumulator of `check_forms` -/

namespace CFL

/-- When the recursion, started after the Terms `P` with their records appended to
the placeholders, makes its `j`-th nested call, that call runs on the `j`-th tail
with `size` grown by `j` and the records of the `j` Terms passed over appended in
order. -/
theorem Forms.check_forms_call_spec :
    ∀ (j : Nat) (rest : List Form) (f : Form) (P : List Form)
      (st : List Form × Nat × List Forms.Item),
      Forms.check_forms_call j (f :: rest) (2 * P.length + rest.length)
          (List.replicate (P.length + rest.length) Forms.Item.zero ++
            P.map (fun p => (p.form_kind, p.test.index, p.test.integration_flags))) =
          some st →
      j ≤ rest.length ∧ st.1 = (f :: rest).drop j ∧
      st.2.1 = 2 * P.length + rest.length + j ∧
      st.2.2 = List.replicate (P.length + rest.length) Forms.Item.zero ++
        (P ++ (f :: rest).take j).map
          (fun p => (p.form_kind, p.test.index, p.test.integration_flags)) := by
  intro j
  induction j with
  | zero =>
    intro rest f P st h
    simp only [Forms.check_forms_call, Option.some.injEq] at h
    subst h
    simp
  | succ j ih =>
    intro rest f P st h
    rw [Forms.check_forms_call] at h
    cases hscan : Forms.check_forms_scan f
        (List.replicate (P.length + rest.length) Forms.Item.zero ++
          P.map (fun p => (p.form_kind, p.test.index, p.test.integration_flags)))
        (List.range' (Forms.number (f :: rest))
          (2 * P.length + rest.length - Forms.number (f :: rest))) with
    | none => rw [hscan] at h; simp at h
    | some b =>
      rw [hscan] at h
      cases b with
      | false => simp at h
      | true =>
        simp only at h
        cases rest with
        | nil => simp at h
        | cons g rest2 =>
          simp only [List.length_cons, ne_eq, Nat.add_one_ne_zero, not_false_eq_true,
            if_true] at h
          have hlen : 2 * (P ++ [f]).length + rest2.length =
              2 * P.length + (rest2.length + 1) + 1 := by
            simp only [List.length_append, List.length_cons, List.length_nil]; omega
          have hrep : (P ++ [f]).length + rest2.length = P.length + (rest2.length + 1) := by
            simp only [List.length_append, List.length_cons, List.length_nil]; omega
          have hih := ih rest2 g (P ++ [f]) st
          rw [hlen, hrep, List.map_append, ← List.append_assoc] at hih
          obtain ⟨h1, h2, h3, h4⟩ := hih (by
            simpa [Forms.form_kind, Forms.fe_number, Form.fe_number] using h)
          refine ⟨by simp only [List.length_cons]; omega, ?_, ?_, ?_⟩
          · rw [h2]; simp
          · rw [h3]; simp only [List.length_cons]; omega
          · rw [h4]; simp

/-- The recursion gets as far as its `j`-th nested call whenever the `j` Terms it
passes over conflict neither with a Term visited before nor with each other. -/
theorem Forms.check_forms_call_reached :
    ∀ (j : Nat) (rest : List Form) (f : Form) (P : List Form), j ≤ rest.length →
      (∀ p ∈ P, ∀ x ∈ (f :: rest).take j, ¬ Forms.Conflict p x) →
      List.Pairwise (fun a b => ¬ Forms.Conflict a b) ((f :: rest).take j) →
      ∃ st, Forms.check_forms_call j (f :: rest) (2 * P.length + rest.length)
          (List.replicate (P.length + rest.length) Forms.Item.zero ++
            P.map (fun p => (p.form_kind, p.test.index, p.test.integration_flags))) =
          some st := by
  intro j
  induction j with
  | zero =>
    intro rest f P _ _ _
    exact ⟨_, rfl⟩
  | succ j ih =>
    intro rest f P hj hP hpair
    cases rest with
    | nil => simp at hj
    | cons g rest2 =>
      obtain ⟨b, hb1, hb2⟩ := Forms.check_forms_scan_spec f
        (List.replicate (P.length + (g :: rest2).length) Forms.Item.zero ++
          P.map (fun p => (p.form_kind, p.test.index, p.test.integration_flags)))
        (List.range' (g :: rest2).length (2 * P.length))
        (by intro i hi; rw [List.mem_range'_1] at hi; simp at hi ⊢; omega)
      rw [Forms.check_forms_range_iff] at hb2
      have hsz : 2 * P.length + (g :: rest2).length - (g :: rest2).length = 2 * P.length := by
        omega
      have htake : (f :: g :: rest2).take (j + 1) = f :: (g :: rest2).take j := rfl
      rw [htake] at hP hpair
      have hbt : b = true :=
        hb2.2 (fun p hp => hP p hp f (List.mem_cons_self _ _))
      subst hbt
      obtain ⟨hfx, hrestpair⟩ := List.pairwise_cons.1 hpair
      obtain ⟨st, hst⟩ := ih rest2 g (P ++ [f]) (by simpa using hj)
        (by
          intro p hp x hx
          rcases List.mem_append.1 hp with hp | hp
          · exact hP p hp x (List.mem_cons_of_mem _ hx)
          · rw [List.mem_singleton] at hp
            subst hp
            exact hfx x hx)
        hrestpair
      have hlen : 2 * (P ++ [f]).length + rest2.length =
          2 * P.length + (g :: rest2).length + 1 := by
        simp only [List.length_append, List.length_cons, List.length_nil]; omega
      have hrep : (P ++ [f]).length + rest2.length = P.length + (g :: rest2).length := by
        simp only [List.length_append, List.length_cons, List.length_nil]; omega
      rw [hlen, hrep, List.map_append, ← List.append_assoc] at hst
      refine ⟨st, ?_⟩
      rw [Forms.check_forms_call, Forms.number_cons, hsz, hb1]
      simp only [List.length_cons, ne_eq, Nat.add_one_ne_zero, not_false_eq_true, if_true]
      simpa [Forms.form_kind, Forms.fe_number, Form.fe_number] using hst

theorem Forms.number_eq (l : List Form) : Forms.number l = l.length - 1 := by
  cases l with
  | nil => rfl
  | cons f rest => rw [Forms.number_cons]; simp

/-- C21: in the top-level run of `check_forms` on a list of length `n` (started with
`size = number = n - 1` and `n - 1` value-initialised placeholder records), when the
recursion reaches Term `T_j` the accumulator has exactly `n - 1 + j` entries, the
records of `T_0 .. T_{j-1}` sit at indices `n - 1 .. n - 2 + j` in insertion order
behind the placeholders, the scan range is `[n - 1 - j, n - 1 + j)`, stays within
bounds and contains every one of those records; the `j` placeholders it also scans
have an empty flag set and cause no rejection.  The recursion does reach `T_j`,
`j < n`, whenever the Terms before it are free of conflicts. -/
theorem check_forms_accumulator_layout (forms : List Form) (j : Nat) :
    (∀ st : List Form × Nat × List Forms.Item,
      Forms.static_assert_check_forms_call j forms = some st →
      j < forms.length ∧ st.1 = forms.drop j ∧ st.1.head? = forms[j]? ∧
      st.2.1 = forms.length - 1 + j ∧ st.2.2.length = forms.length - 1 + j ∧
      (∀ i, i < forms.length - 1 → st.2.2[i]? = some Forms.Item.zero) ∧
      (∀ i, i < j → st.2.2[forms.length - 1 + i]? =
        forms[i]?.map (fun p => (p.form_kind, p.fe_number, p.test.integration_flags))) ∧
      List.range' (Forms.number st.1) (st.2.1 - Forms.number st.1) =
        List.range' (forms.length - 1 - j) (2 * j) ∧
      (∀ idx ∈ List.range' (forms.length - 1 - j) (2 * j), idx < st.2.2.length) ∧
      (∀ i, i < j → forms.length - 1 + i ∈ List.range' (forms.length - 1 - j) (2 * j)) ∧
      (∀ idx, forms.length - 1 - j ≤ idx → idx < forms.length - 1 →
        idx ∈ List.range' (forms.length - 1 - j) (2 * j) ∧
        st.2.2[idx]? = some Forms.Item.zero) ∧
      (∀ T : Form, ¬ (Forms.Item.zero.1 = T.form_kind ∧ Forms.Item.zero.2.1 = T.fe_number ∧
        IntegrationFlags.and Forms.Item.zero.2.2 T.test.integration_flags = true))) ∧
    (j < forms.length →
      List.Pairwise (fun a b => ¬ Forms.Conflict a b) (forms.take j) →
      ∃ st, Forms.static_assert_check_forms_call j forms = some st) := by
  cases forms with
  | nil =>
    refine ⟨?_, ?_⟩
    · intro st h
      cases j <;> simp [Forms.static_assert_check_forms_call, Forms.check_forms_call] at h
    · intro hj; simp at hj
  | cons f rest =>
    refine ⟨?_, ?_⟩
    · intro st h
      have hspec := Forms.check_forms_call_spec j rest f [] st
      simp only [List.length_nil, Nat.mul_zero, Nat.zero_add, List.map_nil, List.append_nil,
        List.nil_append] at hspec
      rw [Forms.static_assert_check_forms_call, Forms.number_cons] at h
      obtain ⟨hj, h1, h2, h3⟩ := hspec h
      have hlen : (f :: rest).length = rest.length + 1 := rfl
      have hstlen : st.2.2.length = rest.length + j := by
        rw [h3, List.length_append, List.length_replicate, List.length_map, List.length_take,
          hlen]
        omega
      refine ⟨by omega, h1, ?_, by omega, by omega, ?_, ?_, ?_, ?_, ?_, ?_, ?_⟩
      · rw [h1, List.head?_drop]
      · intro i hi
        rw [h3, List.getElem?_append_left (by simp; omega)]
        simp only [hlen, Nat.add_sub_cancel] at hi
        simp [hi]
      · intro i hi
        rw [h3, List.getElem?_append_right (by simp),
          List.length_replicate, hlen, Nat.add_sub_cancel, Nat.add_sub_cancel_left,
          List.getElem?_map, List.getElem?_take_of_lt hi]
        rfl
      · rw [h2, h1, Forms.number_eq, List.length_drop, hlen]
        congr 1 <;> omega
      · intro idx hidx
        rw [List.mem_range'_1] at hidx
        omega
      · intro i hi
        rw [List.mem_range'_1]
        omega
      · intro idx h1' h2'
        refine ⟨by rw [List.mem_range'_1]; omega, ?_⟩
        rw [h3, List.getElem?_append_left (by simp; omega)]
        simp only [hlen, Nat.add_sub_cancel] at h2'
        simp [h2']
      · intro T hT
        have := IntegrationFlags.empty_and T.test.integration_flags
        simp [Forms.Item.zero, this] at hT
    · intro hj hpair
      have hreach := Forms.check_forms_call_reached j rest f []
        (by simp only [List.length_cons] at hj; omega)
        (by intro p hp; simp at hp) hpair
      simp only [List.length_nil, Nat.mul_zero, Nat.zero_add, List.map_nil,
        List.append_nil] at hreach
      rw [Forms.static_assert_check_forms_call, Forms.number_cons]
      exact hreach

/-- C21 at the list cell/slot 0, cell/slot 1, boundary/slot 0 (`n = 3`) and `j = 2`:
the recursion reaches the boundary Term with `size = 4` and the accumulator of two
placeholders followed by the records of the two cell Terms, and scans `[0, 4)`. -/
theorem check_forms_accumulator_layout_witness :
    Forms.static_assert_check_forms_call 2
        (Forms.accepted_example ++ [Forms.boundary_example]) =
      some ([Forms.boundary_example], 4,
        [Forms.Item.zero, Forms.Item.zero,
          (FormKind.cell, 0, ⟨true, false, false, false⟩),
          (FormKind.cell, 1, ⟨false, false, true, false⟩)]) ∧
    (2 < (Forms.accepted_example ++ [Forms.boundary_example]).length ∧
      ([Forms.boundary_example] : List Form) =
        (Forms.accepted_example ++ [Forms.boundary_example]).drop 2) ∧
    List.range' (Forms.number [Forms.boundary_example])
        (4 - Forms.number [Forms.boundary_example]) =
      List.range' ((Forms.accepted_example ++ [Forms.boundary_example]).length - 1 - 2)
        (2 * 2) :=
  ⟨by decide,
    ⟨((check_forms_accumulator_layout
        (Forms.accepted_example ++ [Forms.boundary_example]) 2).1
        ([Forms.boundary_example], 4,
          [Forms.Item.zero, Forms.Item.zero,
            (FormKind.cell, 0, ⟨true, false, false, false⟩),
            (FormKind.cell, 1, ⟨false, false, true, false⟩)]) (by decide)).1,
      ((check_forms_accumulator_layout
        (Forms.accepted_example ++ [Forms.boundary_example]) 2).1
        ([Forms.boundary_example], 4,
          [Forms.Item.zero, Forms.Item.zero,
            (FormKind.cell, 0, ⟨true, false, false, false⟩),
            (FormKind.cell, 1, ⟨false, false, true, false⟩)]) (by decide)).2.1⟩,
    ((check_forms_accumulator_layout
        (Forms.accepted_example ++ [Forms.boundary_example]) 2).1
        ([Forms.boundary_example], 4,
          [Forms.Item.zero, Forms.Item.zero,
            (FormKind.cell, 0, ⟨true, false, false, false⟩),
            (FormKind.cell, 1, ⟨false, false, true, false⟩)]) (by decide)).2.2.2.2.2.2.2.1⟩

end CFL
